import Mathlib

/-!
Verification of the 1brc-go aggregation engine (src/main.go) against its
natural-language specification.

The Go program is shallowly embedded: the input file is a `List Char`
(one entry per byte), machine integers are `Int`, byte offsets are `Int`
(Go int64, since the boundary scan can go negative), Go panics and
dropped-chunk unavailability are `Option`, and the nondeterministic
arrival order of worker results is an explicitly quantified permutation.
-/

/-- The per-key aggregate of src/main.go, `type Location struct`:
Min, Max, Total, Count, all Go int64, temperatures in integer tenths. -/
structure Location where
  Min : Int
  Max : Int
  Total : Int
  Count : Int
deriving Repr, DecidableEq, Inhabited

/-- A Go `map[string]Location`, modelled as an association list whose keys
are the raw bytes of the string. Lookup is `List.lookup`; keys are kept
without duplicates by construction. -/
abbrev LocationMap := List (List Char × Location)

/-- Go map assignment `m[k] = v`: replace the binding if the key is
present, otherwise add it. -/
def mapInsert (m : LocationMap) (k : List Char) (v : Location) : LocationMap :=
  match m with
  | [] => [(k, v)]
  | (k', v') :: rest => if k' = k then (k, v) :: rest else (k', v') :: mapInsert rest k v

/-- The chunk size constant of src/main.go line 22, `chunkSize = 1024 * 80`. -/
def chunkSizeGo : Int := 1024 * 80

/-- src/main.go `parseNumber` (lines 181-202), translated byte access by
byte access: strip an optional leading minus sign, then read either the
shape `D.D` (decimal point at index 1) or `DD.D`. Each Go string index
that would panic when out of range is a `List.get?` returning `none`, so
`parseNumber t = none` exactly when the Go function panics on `t`. -/
def parseNumber (temperature : List Char) : Option Int := do
  let c0 ← temperature.get? 0
  let negative := c0 = '-'
  let t := if negative then temperature.drop 1 else temperature
  let c1 ← t.get? 1
  let val ←
    if c1 = '.' then do
      let a2 ← t.get? 2
      let a0 ← t.get? 0
      pure ((a2.toNat : Int) + (a0.toNat : Int) * 10 - 48 * 11)
    else do
      let a3 ← t.get? 3
      let a1 ← t.get? 1
      let a0 ← t.get? 0
      pure ((a3.toNat : Int) + (a1.toNat : Int) * 10 + (a0.toNat : Int) * 100 - 48 * 111)
  pure (if negative then -val else val)

/-- Models Go `strings.Split(data, "\n")` on byte lists: the list of
maximal newline-free pieces; splitting the empty string yields one empty
piece, and a trailing newline yields a trailing empty piece. -/
def splitOnNl : List Char → List (List Char)
  | [] => [[]]
  | c :: rest =>
    if c = '\n' then [] :: splitOnNl rest
    else
      match splitOnNl rest with
      | [] => [[c]]
      | p :: ps => (c :: p) :: ps

/-- src/main.go `processLine` (lines 288-314). Outer `none` models a Go
panic inside `parseNumber`; `some none` models the `return "", nil` skip;
`some (some (name, loc))` is a parsed observation. The Go guard
`strings.Trim(line, "") == ""` trims nothing, so it tests emptiness. -/
def processLine (line : List Char) : Option (Option (List Char × Location)) :=
  if line = [] then some none
  else
    match line.findIdx? (· = ';') with
    | none => some none
    | some splitIndex =>
      let locationName := line.take splitIndex
      let val := line.drop (splitIndex + 1)
      if val.length < 3 ∨ ¬ val.get? (val.length - 2) = some '.' then some none
      else
        match parseNumber val with
        | none => none
        | some temperature => some (some (locationName, ⟨temperature, temperature, temperature, 1⟩))

/-- The accumulate-or-insert fold body of src/main.go `processChunk`
(lines 263-282): insert on first sight, else bump Count, add Total and
compare Max and Min against the incoming singleton. -/
def chunkStep (m : LocationMap) (name : List Char) (location : Location) : LocationMap :=
  match m.lookup name with
  | none => mapInsert m name location
  | some loc =>
      mapInsert m name
        ⟨if loc.Min > location.Min then location.Min else loc.Min,
         if loc.Max < location.Max then location.Max else loc.Max,
         loc.Total + location.Total,
         loc.Count + 1⟩

/-- The per-line body of the `processChunk` loop: a skipped line leaves
the chunk-local map unchanged, a parsed line is folded in with
`chunkStep`, and a panic propagates. -/
def pcStep (m : LocationMap) (line : List Char) : Option LocationMap :=
  match processLine line with
  | none => none
  | some none => some m
  | some (some nl) => some (chunkStep m nl.1 nl.2)

/-- src/main.go `processChunk` (lines 255-286): split the raw chunk on
newlines and fold every parsed line into a chunk-local map. `none`
models a panic escaping from `processLine`. -/
def processChunk (input : List Char) : Option LocationMap :=
  (splitOnNl input).foldlM pcStep []

/-- One step of `bufio.ScanLines`: strip one trailing carriage return
from a token, as Go `dropCR` does. -/
def dropCR (l : List Char) : List Char :=
  if l.getLast? = some '\r' then l.dropLast else l

/-- The token stream of `bufio.NewScanner(file)` with the default
`ScanLines` split: split on newlines, drop the trailing empty token
produced by a final newline (the scanner stops at end of input), and
strip one trailing carriage return from each token. -/
def scanLines (file : List Char) : List (List Char) :=
  (if (splitOnNl file).getLast? = some [] then (splitOnNl file).dropLast
   else splitOnNl file).map dropCR

/-- The token size cap of `bufio.Scanner`, `MaxScanTokenSize = 64 * 1024`:
a maximal newline-free run of at least this many bytes cannot be buffered,
so `Scan` stops and `scanner.Err()` reports `bufio.ErrTooLong`. -/
def maxScanTokenSize : Nat := 64 * 1024

/-- The complete token stream of `bufio.NewScanner(file)`, or `none` when
scanning fails with `bufio.ErrTooLong` because some maximal newline-free
run of the file has `maxScanTokenSize` bytes or more (the cap applies to
the raw run, before `dropCR`). -/
def scanTokens (file : List Char) : Option (List (List Char)) :=
  if (splitOnNl file).all (fun p => decide (p.length < maxScanTokenSize)) then
    some (scanLines file)
  else none

/-- The accumulate-or-insert fold body of src/main.go `parseFile`
(lines 114-138), acting on the insertion-ordered key list and the map.
Note it applies `parseNumber` with no structural validation of the
value substring. -/
def seqStep (acc : List (List Char) × LocationMap) (name : List Char) (temperature : Int) :
    List (List Char) × LocationMap :=
  match acc.2.lookup name with
  | none => (acc.1 ++ [name], mapInsert acc.2 name ⟨temperature, temperature, temperature, 1⟩)
  | some loc =>
      (acc.1,
       mapInsert acc.2 name
        ⟨if loc.Min > temperature then temperature else loc.Min,
         if loc.Max < temperature then temperature else loc.Max,
         loc.Total + temperature,
         loc.Count + 1⟩)

/-- The per-line body of the src/main.go `parseFile` scan loop: skip a
line with no `;`, otherwise split at the first `;` and parse the value
substring with no further validation (`none` models the Go panic when
`parseNumber` indexes out of range). -/
def sfStep (acc : List (List Char) × LocationMap) (line : List Char) :
    Option (List (List Char) × LocationMap) :=
  match line.findIdx? (· = ';') with
  | none => some acc
  | some splitIndex =>
      match parseNumber (line.drop (splitIndex + 1)) with
      | none => none
      | some t => some (seqStep acc (line.take splitIndex) t)

/-- src/main.go `parseFile` (lines 95-145): scan the file line by line,
skip lines with no `;`, parse the value substring, and fold into the
ordered key list and map. `none` covers both ways the sequential path
fails to produce a result: a Go panic inside `parseNumber` (no length or
shape check is performed on the value), and the `bufio.ErrTooLong`
scanner error surfaced through `scanner.Err()` when some line reaches
`maxScanTokenSize` bytes; either way `run(ctx, path, false)` returns no
formatted string. -/
def parseFile (file : List Char) : Option (List (List Char) × LocationMap) :=
  match scanTokens file with
  | none => none
  | some tokens => tokens.foldlM sfStep ([], [])

/-- The per-key merge of src/main.go `parseFileWithConcurrency`
(lines 350-357): counts and totals add, Max by maximum, Min by minimum. -/
def mergeLoc (loc location : Location) : Location :=
  ⟨if loc.Min > location.Min then location.Min else loc.Min,
   if loc.Max < location.Max then location.Max else loc.Max,
   loc.Total + location.Total,
   loc.Count + location.Count⟩

/-- Folding one chunk-local map into the global state, the
`case miniLocationMap := <-results` arm of src/main.go lines 341-361:
new keys are appended to the ordered key list, existing keys are merged
with `mergeLoc`. The Go `range` iteration order over the mini map is
modelled by its list order (mini maps have pairwise distinct keys, so
the resulting global map does not depend on that order). -/
def mmStep (acc : List (List Char) × LocationMap) (kv : List Char × Location) :
    List (List Char) × LocationMap :=
  match acc.2.lookup kv.1 with
  | none => (acc.1 ++ [kv.1], mapInsert acc.2 kv.1 kv.2)
  | some loc => (acc.1, mapInsert acc.2 kv.1 (mergeLoc loc kv.2))

/-- Folding one chunk-local map into the global state entry by entry. -/
def mergeMini (acc : List (List Char) × LocationMap) (mini : LocationMap) :
    List (List Char) × LocationMap :=
  mini.foldl mmStep acc

/-- The whole merge loop: fold every arrived chunk-local map into the
(initially empty) global state. -/
def mergeAll (maps : List LocationMap) : List (List Char) × LocationMap :=
  maps.foldl mergeMini ([], [])

/-- Byte-wise lexicographic order on keys, the order of Go
`sort.Strings` (which compares strings byte by byte). -/
def keyLe : List Char → List Char → Bool
  | [], _ => true
  | _ :: _, [] => false
  | a :: as, b :: bs => if a = b then keyLe as bs else decide (a < b)

/-- Go `sort.Strings(locations)`: sort the key list lexicographically.
Insertion sort is extensionally the unique ascending reordering, hence
agrees with the Go sort. -/
def sortKeys (l : List (List Char)) : List (List Char) :=
  l.insertionSort (fun a b => keyLe a b = true)

/-- Models `strconv.FormatFloat(float64(n)/10, 'f', 1, 64)` for an
integer number `n` of tenths, under exact (real) arithmetic: the sign,
then the integer part, a dot, and the single tenths digit. -/
def formatTenths (n : Int) : String :=
  (if n < 0 then "-" else "") ++ toString (n.natAbs / 10) ++ "." ++ toString (n.natAbs % 10)

/-- Models `math.Round(float64(total)/float64(count))` under exact
(real) arithmetic: the nearest integer to total/count with halves
rounded away from zero (the documented behaviour of Go math.Round). -/
def roundDiv (total count : Int) : Int :=
  if 0 ≤ total then (2 * total + count) / (2 * count)
  else -((2 * (-total) + count) / (2 * count))

/-- One `key=min/avg/max` entry of the output, as written by the buffer
code of src/main.go lines 168-175. -/
def renderEntry (k : List Char) (details : Location) : String :=
  String.mk k ++ "=" ++ formatTenths details.Min ++ "/"
    ++ formatTenths (roundDiv details.Total details.Count) ++ "/" ++ formatTenths details.Max

/-- The rendering loop of src/main.go `createResult` (lines 154-178)
applied to an already sorted key list: open brace, comma-separated
entries, close brace; a key absent from the map aborts with an error
(`none`). -/
def brStep (locationMap : LocationMap) (acc : Nat × String) (k : List Char) :
    Option (Nat × String) :=
  match locationMap.lookup k with
  | none => none
  | some details =>
      some (acc.1 + 1, acc.2 ++ (if 0 < acc.1 then ", " else "") ++ renderEntry k details)

/-- The rendering fold itself, over the already sorted key list. -/
def buildResult (sorted : List (List Char)) (locationMap : LocationMap) : Option String :=
  (sorted.foldlM (brStep locationMap) (0, "\x7b")).map
    (fun (acc : Nat × String) => acc.2 ++ "\x7d")

/-- src/main.go `createResult` (lines 147-179): sort the ordered key
list, then render every entry. -/
def createResult (locations : List (List Char)) (locationMap : LocationMap) : Option String :=
  buildResult (sortKeys locations) locationMap

/-- `run(ctx, path, false)` (src/main.go lines 88-92) once the file is
open: the sequential scan followed by `createResult`. -/
def runSeq (file : List Char) : Option String :=
  match parseFile file with
  | none => none
  | some lm => createResult lm.1 lm.2

/-- Go `file.ReadAt` of a single byte at offset `i`: a byte for an
offset inside the file, an error (`none`) for a negative offset or an
offset at or past the end of the file. -/
def readAt (file : List Char) (i : Int) : Option Char :=
  if i < 0 then none else file.get? i.toNat

/-- src/main.go `findNextLineBoundary` (lines 367-376): scan backward
byte by byte from `start` until a newline byte or a read error (start
of file passed, offset -1) is reached, and return that offset. -/
def findNextLineBoundary (file : List Char) (start : Int) : Int :=
  match h : readAt file start with
  | none => start
  | some c =>
      if c = '\n' then start
      else findNextLineBoundary file (start - 1)
termination_by (start + 1).toNat
decreasing_by
  simp only [readAt] at h
  split at h
  · exact absurd h (by simp)
  · rename_i hng
    omega

/-- The chunk-dispatch loop of src/main.go `lineOrchestrator`
(lines 216-245), generalised over the chunk size `cs` and the Stat-ed
file size: starting from `start`, while `start < fileSize`, dispatch the
byte range from `start` to `start + cs` clamped to `fileSize`, then
continue from the backward-corrected boundary. The loop has no
termination guarantee in the source, so it is fueled; `none` means the
fuel ran out before the loop finished. -/
def chunkRanges (cs : Int) (file : List Char) (fileSize : Int) :
    Nat → Int → Option (List (Int × Int))
  | 0, _ => none
  | fuel + 1, start =>
    if start < fileSize then
      match chunkRanges cs file fileSize fuel
          (findNextLineBoundary file (if start + cs > fileSize then fileSize else start + cs)) with
      | none => none
      | some rest =>
          some ((start, if start + cs > fileSize then fileSize else start + cs) :: rest)
    else some []

/-- The worker read `file.ReadAt(chunk, start)` of src/main.go
lines 230-238 for the range from `s` to `e`: a negative offset or a
range past the end of the file is a read error (the worker then returns
without sending anything), otherwise the exact byte range is read. -/
def readChunk (file : List Char) (s e : Int) : Option (List Char) :=
  if s < 0 ∨ (file.length : Int) < e then none
  else some ((file.drop s.toNat).take (e - s).toNat)

/-- The multiset of chunk-local maps sent on the results channel, in
dispatch order: one `processChunk` result per dispatched range whose
read succeeded (ranges with read errors are silently dropped by the
worker). `none` models fuel exhaustion of the dispatch loop or a panic
inside a worker, both of which prevent `run` from returning normally. -/
def wkStep (file : List Char) (acc : List LocationMap) (se : Int × Int) :
    Option (List LocationMap) :=
  match readChunk file se.1 se.2 with
  | none => some acc
  | some chunk =>
      match processChunk chunk with
      | none => none
      | some m => some (acc ++ [m])

/-- The collected worker results for the dispatched ranges. -/
def dispatchedMaps (cs : Int) (file : List Char) (fileSize : Int) (fuel : Nat) :
    Option (List LocationMap) :=
  match chunkRanges cs file fileSize fuel 0 with
  | none => none
  | some rs => rs.foldlM (wkStep file) []

/-- The maps sent on the results channel by the orchestrator goroutine
of src/main.go lines 325-333, including the `file.Stat()` outcome
(lines 207-211): if Stat fails the orchestrator returns its error
before dispatching anything, the deferred `done <- true` still fires,
and no map is ever sent. -/
def sentMaps (file : List Char) (stat : Option Int) (cs : Int) (fuel : Nat) :
    Option (List LocationMap) :=
  match stat with
  | none => some []
  | some fileSize => dispatchedMaps cs file fileSize fuel

/-- `run(ctx, path, true)` (src/main.go lines 80-85) given the list of
chunk-local maps in their channel arrival order: the merge loop folds
them into the global state (returning a nil error when `done` arrives)
and `createResult` renders it. Arrival order is nondeterministic, so
theorems quantify over permutations of the sent maps. -/
def concResult (arrived : List LocationMap) : Option String :=
  createResult (mergeAll arrived).1 (mergeAll arrived).2

/-- A decimal value byte string as the spec admits it on input lines:
`D.D`, `DD.D`, `-D.D` or `-DD.D` with decimal digit bytes `D`. -/
def validVal : List Char → Bool
  | [a, b, c] => a.isDigit && (b == '.') && c.isDigit
  | [a, b, c, d] =>
      ((a == '-') && b.isDigit && (c == '.') && d.isDigit) ||
        (a.isDigit && b.isDigit && (c == '.') && d.isDigit)
  | [a, b, c, d, e] => (a == '-') && b.isDigit && c.isDigit && (d == '.') && e.isDigit
  | _ => false

/-- A valid input line as the spec admits it: newline-free bytes with a
delimiter whose first occurrence splits it into a key and a value of
valid decimal shape. -/
def validLine (l : List Char) : Bool :=
  match l.findIdx? (· = ';') with
  | none => false
  | some i => !(l.contains '\n') && validVal (l.drop (i + 1))

/-- A newline-terminated input file assembled from its lines. -/
def fileOf (lines : List (List Char)) : List Char :=
  (lines.map (fun l => l ++ ['\n'])).flatten

/-- The byte size of the newline-terminated encoding of a line list. -/
def sizeT (lines : List (List Char)) : Nat :=
  (lines.map (fun l => l.length + 1)).sum

/-- The observation a line contributes: its key and its parsed value in
tenths, or `none` when `processLine` skips (or crashes on) the line. -/
def lineObs (l : List Char) : Option (List Char × Int) :=
  match processLine l with
  | some (some nl) => some (nl.1, nl.2.Min)
  | _ => none

/-- All observations contributed by a list of lines, in order. -/
def obsOf (ls : List (List Char)) : List (List Char × Int) :=
  ls.filterMap lineObs

/-- The aggregate created for the first observation of a key. -/
def singletonLoc (v : Int) : Location := ⟨v, v, v, 1⟩

/-- Folding one observed value into an optional aggregate: create a
singleton on first sight, else merge. Both aggregation paths update a
key's aggregate exactly this way. -/
def updLoc (cur : Option Location) (v : Int) : Location :=
  match cur with
  | none => singletonLoc v
  | some loc => mergeLoc loc (singletonLoc v)

/-- Folding a list of observed values into an optional aggregate. -/
def foldAgg (init : Option Location) (vs : List Int) : Option Location :=
  vs.foldl (fun acc v => some (updLoc acc v)) init

/-- The canonical aggregate of a list of observed values. -/
def aggObs (vs : List Int) : Option Location := foldAgg none vs

/-- Merging two optional aggregates, with absence as the identity. -/
def optMerge (a b : Option Location) : Option Location :=
  match a, b with
  | none, b => b
  | some l, none => some l
  | some l, some x => some (mergeLoc l x)

/-- The values a list of observations carries for one key, in order. -/
def keyVals (obs : List (List Char × Int)) (k : List Char) : List Int :=
  (obs.filter (fun o => o.1 = k)).map Prod.snd

/-- Folding a list of observations into a map with the chunk-worker
accumulate-or-insert rule. -/
def addObs (m : LocationMap) (obs : List (List Char × Int)) : LocationMap :=
  obs.foldl (fun m o => chunkStep m o.1 (singletonLoc o.2)) m

/-- The chunk-local map a worker builds for a group of lines. -/
def chunkMapOf (g : List (List Char)) : LocationMap :=
  addObs [] (obsOf g)

/-- The sequential fold of src/main.go `parseFile` over a list of
observations. -/
def seqFold (obs : List (List Char × Int)) : List (List Char) × LocationMap :=
  obs.foldl (fun acc o => seqStep acc o.1 o.2) ([], [])

/-- Well-formedness of an aggregation state: the ordered key list has no
duplicates, lists exactly the keys present in the map, and the map keys
are themselves duplicate-free. -/
def StateWF (acc : List (List Char) × LocationMap) : Prop :=
  acc.1.Nodup ∧ (∀ k, k ∈ acc.1 ↔ acc.2.lookup k ≠ none) ∧ (acc.2.map Prod.fst).Nodup

/-- How many whole newline-terminated lines fit in a byte budget `n`:
a line is complete inside the budget when its content (though not
necessarily its terminating newline) lies within it. -/
def fitCount : Nat → List (List Char) → Nat
  | _, [] => 0
  | n, l :: ls =>
      if l.length + 1 ≤ n then fitCount (n - (l.length + 1)) ls + 1
      else if l.length ≤ n then 1 else 0

/-- The loop variable `start` of the orchestrator once the lines in
`done` have been passed: 0 before the first chunk, else the offset of
the newline that terminates the last passed line. -/
def startOf (done : List (List Char)) : Int :=
  if done = [] then 0 else (sizeT done : Int) - 1

/-- A single valid line far longer than the chunk size constant. -/
def longLine : List Char := List.replicate 90000 'a' ++ [';', '1', '.', '2']

/-- A valid one-line input file whose line exceeds `chunkSizeGo`. -/
def longFile : List Char := fileOf [longLine]

/-- A valid line longer than `maxScanTokenSize` yet fitting (with its
newline) within `chunkSizeGo`. -/
def midLine : List Char := List.replicate 69996 'a' ++ [';', '1', '.', '2']

/-- A valid one-line input file whose line overflows the sequential
scanner but fits inside one chunk of the concurrent path. -/
def midFile : List Char := fileOf [midLine]

/-- A valid line whose terminated size is exactly `chunkSizeGo`. -/
def wideLine : List Char := List.replicate 81914 'a' ++ [';', '1', '.', '2']

/-- A valid two-line input file that makes the first proposed chunk
boundary land one byte past a newline. -/
def wideFile : List Char := fileOf [wideLine, ['b', ';', '1', '.', '2']]

/-- The strict byte-wise lexicographic order on keys. -/
def keyLt (a b : List Char) : Prop := keyLe a b = true ∧ a ≠ b

/-- The integer value of a decimal digit byte. -/
def digitVal (c : Char) : Int := (c.toNat : Int) - 48

/-- The successor of a loop position in the orchestrator: the proposed
boundary `start + cs` clamped to the file size and then corrected
backward to a newline. -/
def nextStart (cs : Int) (file : List Char) (fileSize start : Int) : Int :=
  findNextLineBoundary file (if start + cs > fileSize then fileSize else start + cs)

/-- The orchestrator dispatch loop finishes after finitely many
iterations. -/
def orchestratorHalts (cs : Int) (file : List Char) (fileSize : Int) : Prop :=
  ∃ fuel rs, chunkRanges cs file fileSize fuel 0 = some rs

/-- The concurrent path of `run` reaches its merge-complete state: the
dispatch loop finishes and every worker terminates without a panic. -/
def concTerminates (file : List Char) (stat : Option Int) (cs : Int) : Prop :=
  ∃ fuel maps, sentMaps file stat cs fuel = some maps

/-- The signed number of tenths a decimal byte string of valid shape
denotes, written from the spec's description of the formats `D.D`,
`DD.D`, `-D.D` and `-DD.D` (one or two integer digits, exactly one
fractional digit, optional leading minus). -/
def valDenote : List Char → Int
  | [a, _, c] => 10 * digitVal a + digitVal c
  | [a, b, _, d] =>
      if a = '-' then -(10 * digitVal b + digitVal d)
      else 100 * digitVal a + 10 * digitVal b + digitVal d
  | [_, b, c, _, e] => -(100 * digitVal b + 10 * digitVal c + digitVal e)
  | _ => 0

/-! ### Association-list map lemmas -/

theorem lookup_nil (k : List Char) : ([] : LocationMap).lookup k = none := rfl

theorem lookup_cons_self (kp : List Char) (vp : Location) (rest : LocationMap) :
    (((kp, vp) :: rest) : LocationMap).lookup kp = some vp := by
  simp [List.lookup]

theorem lookup_cons_ne (k kp : List Char) (vp : Location) (rest : LocationMap)
    (h : k ≠ kp) : (((kp, vp) :: rest) : LocationMap).lookup k = rest.lookup k := by
  have hb : (k == kp) = false := beq_eq_false_iff_ne.mpr h
  simp [List.lookup, hb]

theorem lookup_mapInsert (m : LocationMap) (k : List Char) (v : Location) (k' : List Char) :
    (mapInsert m k v).lookup k' = if k' = k then some v else m.lookup k' := by
  induction m with
  | nil =>
      by_cases h : k' = k
      · subst h; simp [mapInsert, lookup_cons_self]
      · simp [mapInsert, lookup_cons_ne k' k v [] h, h, lookup_nil]
  | cons p rest ih =>
      obtain ⟨kp, vp⟩ := p
      by_cases hpk : kp = k
      · subst hpk
        by_cases h : k' = kp
        · subst h; simp [mapInsert, lookup_cons_self]
        · simp [mapInsert, lookup_cons_ne k' kp v rest h, lookup_cons_ne k' kp vp rest h, h]
      · by_cases h : k' = kp
        · subst h
          simp [mapInsert, hpk, lookup_cons_self]
        · simp [mapInsert, hpk, lookup_cons_ne k' kp vp _ h, ih]

theorem keys_mapInsert_of_mem (m : LocationMap) (k : List Char) (v : Location)
    (h : m.lookup k ≠ none) :
    (mapInsert m k v).map Prod.fst = m.map Prod.fst := by
  induction m with
  | nil => simp [lookup_nil] at h
  | cons p rest ih =>
      obtain ⟨kp, vp⟩ := p
      by_cases hk : kp = k
      · subst hk
        simp [mapInsert]
      · have h' : rest.lookup k ≠ none := by
          have hne : k ≠ kp := fun hh => hk hh.symm
          rw [lookup_cons_ne k kp vp rest hne] at h
          exact h
        simp [mapInsert, hk, ih h']

theorem keys_mapInsert_of_none (m : LocationMap) (k : List Char) (v : Location)
    (h : m.lookup k = none) :
    (mapInsert m k v).map Prod.fst = m.map Prod.fst ++ [k] := by
  induction m with
  | nil => simp [mapInsert]
  | cons p rest ih =>
      obtain ⟨kp, vp⟩ := p
      by_cases hk : kp = k
      · subst hk
        simp [lookup_cons_self] at h
      · have h' : rest.lookup k = none := by
          have hne : k ≠ kp := fun hh => hk hh.symm
          rw [lookup_cons_ne k kp vp rest hne] at h
          exact h
        simp [mapInsert, hk, ih h']

theorem lookup_eq_none_iff (m : LocationMap) (k : List Char) :
    m.lookup k = none ↔ k ∉ m.map Prod.fst := by
  induction m with
  | nil => simp [lookup_nil]
  | cons p rest ih =>
      obtain ⟨kp, vp⟩ := p
      by_cases hk : k = kp
      · subst hk
        simp [lookup_cons_self]
      · rw [lookup_cons_ne k kp vp rest hk]
        simp [hk, ih]

theorem keysNodup_mapInsert (m : LocationMap) (k : List Char) (v : Location)
    (h : (m.map Prod.fst).Nodup) : ((mapInsert m k v).map Prod.fst).Nodup := by
  rcases hm : m.lookup k with _ | loc
  · rw [keys_mapInsert_of_none m k v hm]
    have hk : k ∉ m.map Prod.fst := (lookup_eq_none_iff m k).mp hm
    simp [List.nodup_append, h, hk]
  · rw [keys_mapInsert_of_mem m k v (by simp [hm])]
    exact h

/-! ### parseNumber on well-shaped values -/

theorem char_ne_of_digit_minus {d : Char} (h : d.isDigit) : d ≠ '-' := by
  intro hd; subst hd; simp [Char.isDigit] at h

theorem char_ne_of_digit_dot {d : Char} (h : d.isDigit) : d ≠ '.' := by
  intro hd; subst hd; simp [Char.isDigit] at h

theorem parseNumber_shape1 {d1 d2 : Char} (h1 : d1.isDigit) (h2 : d2.isDigit) :
    parseNumber [d1, '.', d2] = some ((d2.toNat : Int) + (d1.toNat : Int) * 10 - 48 * 11) := by
  simp [parseNumber, char_ne_of_digit_minus h1]

theorem parseNumber_shape2 {d1 d2 d3 : Char} (h1 : d1.isDigit) (h2 : d2.isDigit)
    (h3 : d3.isDigit) :
    parseNumber [d1, d2, '.', d3] =
      some ((d3.toNat : Int) + (d2.toNat : Int) * 10 + (d1.toNat : Int) * 100 - 48 * 111) := by
  simp [parseNumber, char_ne_of_digit_minus h1]
  intro hh
  exact absurd hh (char_ne_of_digit_dot h2)

theorem parseNumber_shape3 {d1 d2 : Char} (h1 : d1.isDigit) (h2 : d2.isDigit) :
    parseNumber ['-', d1, '.', d2] =
      some (-((d2.toNat : Int) + (d1.toNat : Int) * 10 - 48 * 11)) := by
  simp [parseNumber]

theorem parseNumber_shape4 {d1 d2 d3 : Char} (h1 : d1.isDigit) (h2 : d2.isDigit)
    (h3 : d3.isDigit) :
    parseNumber ['-', d1, d2, '.', d3] =
      some (-((d3.toNat : Int) + (d2.toNat : Int) * 10 + (d1.toNat : Int) * 100 - 48 * 111)) := by
  simp [parseNumber]
  intro hh
  exact absurd hh (char_ne_of_digit_dot h2)

/-! ### Decomposing valid lines -/

theorem findIdx_decomp {α : Type} (p : α → Bool) (l : List α) (i : Nat)
    (h : l.findIdx? p = some i) :
    ∃ pre c suf, l = pre ++ c :: suf ∧ pre.length = i ∧ p c = true ∧ ∀ x ∈ pre, p x = false := by
  induction l generalizing i with
  | nil => simp at h
  | cons a l ih =>
      rw [List.findIdx?_cons] at h
      by_cases ha : p a
      · simp [ha] at h
        exact ⟨[], a, l, by simp, by simp [h], ha, by simp⟩
      · simp [ha, List.findIdx?_succ] at h
        obtain ⟨j, hj, hij⟩ := h
        obtain ⟨pre, c, suf, hl, hlen, hc, hpre⟩ := ih j hj
        refine ⟨a :: pre, c, suf, by simp [hl], by simp [hlen, hij], hc, ?_⟩
        intro x hx
        rcases List.mem_cons.mp hx with hx | hx
        · subst hx; simpa using ha
        · exact hpre x hx

theorem findIdx_append_cons {α : Type} (p : α → Bool) (pre : List α) (c : α) (suf : List α)
    (hpre : ∀ x ∈ pre, p x = false) (hc : p c = true) :
    (pre ++ c :: suf).findIdx? p = some pre.length := by
  induction pre with
  | nil => simp [List.findIdx?_cons, hc]
  | cons a rest ih =>
      have ha : p a = false := hpre a (by simp)
      have hrest : ∀ x ∈ rest, p x = false := fun x hx => hpre x (by simp [hx])
      simp [List.findIdx?_cons, ha, List.findIdx?_succ, ih hrest]

theorem validVal_elim {v : List Char} (h : validVal v = true) :
    (∃ d1 d2, v = [d1, '.', d2] ∧ d1.isDigit ∧ d2.isDigit) ∨
    (∃ d1 d2 d3, v = [d1, d2, '.', d3] ∧ d1.isDigit ∧ d2.isDigit ∧ d3.isDigit) ∨
    (∃ d1 d2, v = ['-', d1, '.', d2] ∧ d1.isDigit ∧ d2.isDigit) ∨
    (∃ d1 d2 d3, v = ['-', d1, d2, '.', d3] ∧ d1.isDigit ∧ d2.isDigit ∧ d3.isDigit) := by
  match v with
  | [] => simp [validVal] at h
  | [a] => simp [validVal] at h
  | [a, b] => simp [validVal] at h
  | [a, b, c] =>
      simp [validVal] at h
      obtain ⟨⟨ha, hb⟩, hc⟩ := h
      exact Or.inl ⟨a, c, by simp [hb], ha, hc⟩
  | [a, b, c, d] =>
      simp [validVal] at h
      rcases h with ⟨⟨⟨ha, hb⟩, hc⟩, hd⟩ | ⟨⟨⟨ha, hb⟩, hc⟩, hd⟩
      · exact Or.inr (Or.inr (Or.inl ⟨b, d, by simp [ha, hc], hb, hd⟩))
      · exact Or.inr (Or.inl ⟨a, b, d, by simp [hc], ha, hb, hd⟩)
  | [a, b, c, d, e] =>
      simp [validVal] at h
      obtain ⟨⟨⟨⟨ha, hb⟩, hc⟩, hd⟩, he⟩ := h
      exact Or.inr (Or.inr (Or.inr ⟨b, c, e, by simp [ha, hd], hb, hc, he⟩))
  | a :: b :: c :: d :: e :: f :: rest => simp [validVal] at h

theorem validLine_decomp {l : List Char} (h : validLine l = true) :
    ∃ key val, l = key ++ ';' :: val ∧ (∀ c ∈ key, c ≠ ';') ∧ validVal val = true ∧
      l.findIdx? (· = ';') = some key.length ∧ l.contains '\n' = false := by
  unfold validLine at h
  rcases hidx : l.findIdx? (· = ';') with _ | i
  · rw [hidx] at h; simp at h
  · rw [hidx] at h
    simp only [Bool.and_eq_true, Bool.not_eq_true'] at h
    obtain ⟨hnl, hval⟩ := h
    obtain ⟨pre, c, suf, hl, hlen, hc, hpre⟩ := findIdx_decomp _ l i hidx
    have hc' : c = ';' := by simpa using hc
    subst hc'
    have hdrop : l.drop (i + 1) = suf := by
      subst hl
      rw [← hlen]
      rw [List.drop_append_eq_append_drop]
      simp
    refine ⟨pre, suf, by rw [hl], ?_, ?_, by rw [hlen], hnl⟩
    · intro x hx
      have := hpre x hx
      simpa using this
    · rw [hdrop] at hval
      exact hval

theorem drop_split_at_key (key val : List Char) :
    (key ++ ';' :: val).drop (key.length + 1) = val := by
  rw [List.drop_append_eq_append_drop]
  simp

theorem take_at_key (key val : List Char) :
    (key ++ ';' :: val).take key.length = key := by
  rw [List.take_append_eq_append_take]
  simp

theorem processLine_valid {l : List Char} (h : validLine l = true) :
    ∃ key val v, l = key ++ ';' :: val ∧ validVal val = true ∧
      l.findIdx? (· = ';') = some key.length ∧ parseNumber val = some v ∧
      processLine l = some (some (key, singletonLoc v)) ∧ lineObs l = some (key, v) := by
  obtain ⟨key, val, hl, hkey, hval, hidx, hnl⟩ := validLine_decomp h
  have hne : ¬ (l = []) := by rw [hl]; simp
  have htake : l.take key.length = key := by rw [hl]; exact take_at_key key val
  have hdrop : l.drop (key.length + 1) = val := by rw [hl]; exact drop_split_at_key key val
  have hcheck : ¬ (val.length < 3 ∨ ¬ val.get? (val.length - 2) = some '.') := by
    rcases validVal_elim hval with ⟨d1, d2, hv, h1, h2⟩ | ⟨d1, d2, d3, hv, h1, h2, h3⟩ |
      ⟨d1, d2, hv, h1, h2⟩ | ⟨d1, d2, d3, hv, h1, h2, h3⟩ <;> subst hv <;> simp
  obtain ⟨v, hv⟩ : ∃ v, parseNumber val = some v := by
    rcases validVal_elim hval with ⟨d1, d2, hv, h1, h2⟩ | ⟨d1, d2, d3, hv, h1, h2, h3⟩ |
      ⟨d1, d2, hv, h1, h2⟩ | ⟨d1, d2, d3, hv, h1, h2, h3⟩ <;> subst hv
    · exact ⟨_, parseNumber_shape1 h1 h2⟩
    · exact ⟨_, parseNumber_shape2 h1 h2 h3⟩
    · exact ⟨_, parseNumber_shape3 h1 h2⟩
    · exact ⟨_, parseNumber_shape4 h1 h2 h3⟩
  have hpl : processLine l = some (some (key, singletonLoc v)) := by
    unfold processLine
    rw [if_neg hne, hidx]
    simp only [htake, hdrop]
    rw [if_neg hcheck, hv]
    rfl
  exact ⟨key, val, v, hl, hval, hidx, hv, hpl, by simp [lineObs, hpl, singletonLoc]⟩

theorem processLine_nil : processLine [] = some none := by decide

theorem processLine_no_semi {l : List Char} (h : ∀ c ∈ l, c ≠ ';') :
    processLine l = some none := by
  by_cases hnil : l = []
  · subst hnil; exact processLine_nil
  · unfold processLine
    rw [if_neg hnil]
    have : l.findIdx? (· = ';') = none := by
      rw [List.findIdx?_eq_none_iff]
      intro x hx
      simpa using h x hx
    rw [this]

theorem processLine_take_of_valid {l : List Char} (h : validLine l = true) :
    ∀ n, n < l.length → processLine (l.take n) = some none := by
  obtain ⟨key, val, hl, hkey, hval, hidx, hnl⟩ := validLine_decomp h
  intro n hn
  subst hl
  by_cases hsmall : n ≤ key.length
  · have htake : (key ++ ';' :: val).take n = key.take n := by
      rw [List.take_append_eq_append_take]
      have h0 : n - key.length = 0 := by omega
      simp [h0]
    rw [htake]
    exact processLine_no_semi (fun c hc => hkey c (List.take_subset n key hc))
  · have hgt : key.length < n := by omega
    obtain ⟨r, hr⟩ : ∃ r, n = key.length + 1 + r := ⟨n - key.length - 1, by omega⟩
    have hrlt : r < val.length := by
      simp only [List.length_append, List.length_cons] at hn
      omega
    have htake : (key ++ ';' :: val).take n = key ++ ';' :: val.take r := by
      rw [List.take_append_eq_append_take, List.take_of_length_le (le_of_lt hgt)]
      have h2 : n - key.length = r + 1 := by omega
      rw [h2]
      simp [List.take_succ_cons]
    rw [htake]
    have hne2 : ¬ (key ++ ';' :: val.take r = []) := by simp
    unfold processLine
    rw [if_neg hne2]
    have hidx2 : (key ++ ';' :: val.take r).findIdx? (· = ';') = some key.length := by
      apply findIdx_append_cons
      · intro x hx
        simpa using hkey x hx
      · simp
    rw [hidx2]
    simp only [take_at_key, drop_split_at_key]
    have hcheck : (val.take r).length < 3 ∨ ¬ (val.take r).get? ((val.take r).length - 2) = some '.' := by
      rcases validVal_elim hval with ⟨d1, d2, hv, h1, h2⟩ | ⟨d1, d2, d3, hv, h1, h2, h3⟩ |
        ⟨d1, d2, hv, h1, h2⟩ | ⟨d1, d2, d3, hv, h1, h2, h3⟩ <;> subst hv <;>
        simp only [List.length_cons, List.length_nil] at hrlt
      · left
        simp [List.length_take]
        omega
      · have : r = 0 ∨ r = 1 ∨ r = 2 ∨ r = 3 := by omega
        rcases this with h | h | h | h <;> subst h <;> simp
        exact char_ne_of_digit_dot h2
      · have : r = 0 ∨ r = 1 ∨ r = 2 ∨ r = 3 := by omega
        rcases this with h | h | h | h <;> subst h <;> simp
        exact char_ne_of_digit_dot h1
      · have : r = 0 ∨ r = 1 ∨ r = 2 ∨ r = 3 ∨ r = 4 := by omega
        rcases this with h | h | h | h | h <;> subst h <;> simp
        · exact char_ne_of_digit_dot h1
        · exact char_ne_of_digit_dot h2
    rw [if_pos hcheck]

/-! ### Splitting a newline-terminated file back into its lines -/

theorem contains_false_forall {l : List Char} {a : Char} (h : l.contains a = false) :
    ∀ c ∈ l, c ≠ a := by
  intro c hc hca
  subst hca
  have := List.elem_eq_true_of_mem hc
  rw [List.contains] at h
  rw [h] at this
  cases this

theorem splitOnNl_no_nl {l : List Char} (h : ∀ c ∈ l, c ≠ '\n') : splitOnNl l = [l] := by
  induction l with
  | nil => rfl
  | cons c rest ih =>
      have hc : c ≠ '\n' := h c (by simp)
      have hrest := ih (fun x hx => h x (by simp [hx]))
      simp [splitOnNl, hc, hrest]

theorem splitOnNl_cons_nl (rest : List Char) :
    splitOnNl ('\n' :: rest) = [] :: splitOnNl rest := by
  simp [splitOnNl]

theorem splitOnNl_ne_nil (l : List Char) : splitOnNl l ≠ [] := by
  induction l with
  | nil => simp [splitOnNl]
  | cons c rest ih =>
      by_cases hc : c = '\n'
      · simp [splitOnNl, hc]
      · simp only [splitOnNl, if_neg hc]
        rcases h : splitOnNl rest with _ | ⟨p, ps⟩
        · simp
        · simp

theorem splitOnNl_append_nl {l : List Char} (rest : List Char) (h : ∀ c ∈ l, c ≠ '\n') :
    splitOnNl (l ++ '\n' :: rest) = l :: splitOnNl rest := by
  induction l with
  | nil => simp [splitOnNl_cons_nl]
  | cons c t ih =>
      have hc : c ≠ '\n' := h c (by simp)
      have ht := ih (fun x hx => h x (by simp [hx]))
      simp only [List.cons_append, splitOnNl, if_neg hc]
      rw [show t.append ('\n' :: rest) = t ++ '\n' :: rest from rfl, ht]

theorem fileOf_cons (l : List Char) (ls : List (List Char)) :
    fileOf (l :: ls) = l ++ '\n' :: fileOf ls := by
  simp [fileOf]

theorem fileOf_nil : fileOf [] = [] := rfl

theorem fileOf_append (a b : List (List Char)) :
    fileOf (a ++ b) = fileOf a ++ fileOf b := by
  simp [fileOf]

theorem length_fileOf (ls : List (List Char)) : (fileOf ls).length = sizeT ls := by
  induction ls with
  | nil => rfl
  | cons l t ih => simp [fileOf_cons, sizeT, ih]; simp [sizeT] at ih; omega

theorem splitOnNl_fileOf {lines : List (List Char)}
    (h : ∀ l ∈ lines, ∀ c ∈ l, c ≠ '\n') :
    splitOnNl (fileOf lines) = lines ++ [[]] := by
  induction lines with
  | nil => rfl
  | cons l ls ih =>
      rw [fileOf_cons, splitOnNl_append_nl _ (h l (by simp))]
      rw [ih (fun x hx => h x (by simp [hx]))]
      rfl

theorem validLine_no_nl {l : List Char} (h : validLine l = true) : ∀ c ∈ l, c ≠ '\n' := by
  obtain ⟨key, val, hl, hkey, hval, hidx, hnl⟩ := validLine_decomp h
  exact contains_false_forall hnl

theorem char_ne_of_digit_cr {d : Char} (h : d.isDigit) : d ≠ '\r' := by
  intro hd; subst hd; simp [Char.isDigit] at h

theorem dropCR_valid {l : List Char} (h : validLine l = true) : dropCR l = l := by
  obtain ⟨key, val, hl, hkey, hval, hidx, hnl⟩ := validLine_decomp h
  have hlast : ∃ d, l.getLast? = some d ∧ d.isDigit := by
    rcases validVal_elim hval with ⟨d1, d2, hv, h1, h2⟩ | ⟨d1, d2, d3, hv, h1, h2, h3⟩ |
      ⟨d1, d2, hv, h1, h2⟩ | ⟨d1, d2, d3, hv, h1, h2, h3⟩ <;> subst hv <;> subst hl
    · exact ⟨d2, by simp [List.getLast?_append], h2⟩
    · exact ⟨d3, by simp [List.getLast?_append], h3⟩
    · exact ⟨d2, by simp [List.getLast?_append], h2⟩
    · exact ⟨d3, by simp [List.getLast?_append], h3⟩
  obtain ⟨d, hd, hdig⟩ := hlast
  rw [dropCR, hd]
  have : ¬ (d = '\r') := char_ne_of_digit_cr hdig
  simp [this]

theorem scanLines_fileOf {lines : List (List Char)}
    (h : ∀ l ∈ lines, validLine l = true) :
    scanLines (fileOf lines) = lines := by
  unfold scanLines
  rw [splitOnNl_fileOf (fun l hl => validLine_no_nl (h l hl))]
  have hlast : (lines ++ [[]]).getLast? = some [] := by
    simp [List.getLast?_append]
  rw [if_pos hlast, List.dropLast_concat]
  calc List.map dropCR lines
      = List.map id lines := List.map_congr_left (fun l hl => dropCR_valid (h l hl))
    _ = lines := List.map_id lines

/-! ### The sequential scan over a valid file -/

theorem sfStep_valid {l : List Char} (h : validLine l = true)
    (acc : List (List Char) × LocationMap) :
    ∃ key v, lineObs l = some (key, v) ∧ sfStep acc l = some (seqStep acc key v) := by
  obtain ⟨key, val, v, hl, hval, hidx, hv, hpl, hobs⟩ := processLine_valid h
  refine ⟨key, v, hobs, ?_⟩
  have hdrop : l.drop (key.length + 1) = val := by rw [hl]; exact drop_split_at_key key val
  have htake : l.take key.length = key := by rw [hl]; exact take_at_key key val
  unfold sfStep
  rw [hidx]
  dsimp only
  rw [hdrop, hv, htake]

theorem foldlM_sfStep {lines : List (List Char)} (hv : ∀ l ∈ lines, validLine l = true) :
    ∀ acc, lines.foldlM sfStep acc =
      some ((obsOf lines).foldl (fun a o => seqStep a o.1 o.2) acc) := by
  induction lines with
  | nil => intro acc; rfl
  | cons l ls ih =>
      intro acc
      obtain ⟨key, v, hobs, hstep⟩ := sfStep_valid (hv l (by simp)) acc
      rw [List.foldlM_cons, hstep]
      have hobsc : obsOf (l :: ls) = (key, v) :: obsOf ls := by
        simp [obsOf, List.filterMap_cons, hobs]
      rw [hobsc]
      simpa using ih (fun x hx => hv x (by simp [hx])) (seqStep acc key v)

theorem scanTokens_fileOf {lines : List (List Char)} (hv : ∀ l ∈ lines, validLine l = true)
    (hcap : ∀ l ∈ lines, l.length < maxScanTokenSize) :
    scanTokens (fileOf lines) = some lines := by
  unfold scanTokens
  rw [if_pos, scanLines_fileOf hv]
  rw [splitOnNl_fileOf (fun l hl => validLine_no_nl (hv l hl)), List.all_eq_true]
  intro p hp
  rcases List.mem_append.mp hp with hp | hp
  · simpa using hcap p hp
  · simp only [List.mem_singleton] at hp
    subst hp
    simp [maxScanTokenSize]

theorem parseFile_fileOf {lines : List (List Char)} (hv : ∀ l ∈ lines, validLine l = true)
    (hcap : ∀ l ∈ lines, l.length < maxScanTokenSize) :
    parseFile (fileOf lines) = some (seqFold (obsOf lines)) := by
  unfold parseFile seqFold
  rw [scanTokens_fileOf hv hcap]
  exact foldlM_sfStep hv ([], [])

/-! ### The merge algebra -/

theorem mergeLoc_comm (a b : Location) : mergeLoc a b = mergeLoc b a := by
  obtain ⟨amin, amax, at_, ac⟩ := a
  obtain ⟨bmin, bmax, bt, bc⟩ := b
  simp only [mergeLoc, Location.mk.injEq]
  refine ⟨?_, ?_, by omega, by omega⟩ <;> split_ifs <;> omega

theorem mergeLoc_assoc (a b c : Location) :
    mergeLoc (mergeLoc a b) c = mergeLoc a (mergeLoc b c) := by
  obtain ⟨amin, amax, at_, ac⟩ := a
  obtain ⟨bmin, bmax, bt, bc⟩ := b
  obtain ⟨cmin, cmax, ct, cc⟩ := c
  simp only [mergeLoc, Location.mk.injEq]
  refine ⟨?_, ?_, by omega, by omega⟩ <;> split_ifs <;> omega

theorem optMerge_none_left (b : Option Location) : optMerge none b = b := by cases b <;> rfl

theorem optMerge_none_right (a : Option Location) : optMerge a none = a := by cases a <;> rfl

theorem optMerge_comm (a b : Option Location) : optMerge a b = optMerge b a := by
  cases a <;> cases b <;> simp [optMerge, mergeLoc_comm]

theorem optMerge_assoc (a b c : Option Location) :
    optMerge (optMerge a b) c = optMerge a (optMerge b c) := by
  cases a <;> cases b <;> cases c <;> simp [optMerge, mergeLoc_assoc]

theorem updLoc_optMerge (cur : Option Location) (v : Int) :
    some (updLoc cur v) = optMerge cur (some (singletonLoc v)) := by
  cases cur <;> rfl

theorem chunkStep_eq (m : LocationMap) (k : List Char) (v : Int) :
    chunkStep m k (singletonLoc v) = mapInsert m k (updLoc (m.lookup k) v) := by
  unfold chunkStep
  rcases h : m.lookup k with _ | loc
  · rfl
  · simp [updLoc, mergeLoc, singletonLoc]

theorem seqStep_eq (acc : List (List Char) × LocationMap) (name : List Char) (v : Int) :
    seqStep acc name v =
      ((if acc.2.lookup name = none then acc.1 ++ [name] else acc.1),
        mapInsert acc.2 name (updLoc (acc.2.lookup name) v)) := by
  unfold seqStep
  rcases h : acc.2.lookup name with _ | loc
  · simp [updLoc, singletonLoc]
  · simp [updLoc, mergeLoc, singletonLoc]

theorem mmStep_eq (acc : List (List Char) × LocationMap) (kv : List Char × Location) :
    mmStep acc kv =
      ((if acc.2.lookup kv.1 = none then acc.1 ++ [kv.1] else acc.1),
        mapInsert acc.2 kv.1
          (match acc.2.lookup kv.1 with
           | none => kv.2
           | some loc => mergeLoc loc kv.2)) := by
  unfold mmStep
  rcases h : acc.2.lookup kv.1 with _ | loc <;> simp

theorem lookup_mmStep (acc : List (List Char) × LocationMap) (kv : List Char × Location)
    (k : List Char) :
    (mmStep acc kv).2.lookup k =
      if k = kv.1 then optMerge (acc.2.lookup kv.1) (some kv.2) else acc.2.lookup k := by
  rw [mmStep_eq]
  dsimp only
  rw [lookup_mapInsert]
  rcases h : acc.2.lookup kv.1 with _ | loc <;> simp [optMerge]

/-! ### Per-key values through the folds -/

theorem keyVals_nil (k : List Char) : keyVals [] k = [] := rfl

theorem keyVals_cons_self {o : List Char × Int} {k : List Char} (h : o.1 = k)
    (os : List (List Char × Int)) : keyVals (o :: os) k = o.2 :: keyVals os k := by
  simp [keyVals, List.filter_cons, h]

theorem keyVals_cons_ne {o : List Char × Int} {k : List Char} (h : ¬ o.1 = k)
    (os : List (List Char × Int)) : keyVals (o :: os) k = keyVals os k := by
  simp [keyVals, List.filter_cons, h]

theorem keyVals_append (xs ys : List (List Char × Int)) (k : List Char) :
    keyVals (xs ++ ys) k = keyVals xs k ++ keyVals ys k := by
  simp [keyVals, List.filter_append]

theorem foldAgg_nil (init : Option Location) : foldAgg init [] = init := rfl

theorem foldAgg_cons (init : Option Location) (v : Int) (vs : List Int) :
    foldAgg init (v :: vs) = foldAgg (some (updLoc init v)) vs := rfl

theorem foldAgg_append (init : Option Location) (vs ws : List Int) :
    foldAgg init (vs ++ ws) = foldAgg (foldAgg init vs) ws := by
  simp [foldAgg, List.foldl_append]

theorem foldAgg_eq_optMerge (vs : List Int) :
    ∀ init, foldAgg init vs = optMerge init (aggObs vs) := by
  induction vs with
  | nil => intro init; rw [foldAgg_nil]; exact (optMerge_none_right init).symm
  | cons v vs ih =>
      intro init
      rw [foldAgg_cons, ih]
      have h2 : aggObs (v :: vs) = optMerge (some (singletonLoc v)) (aggObs vs) := by
        show foldAgg none (v :: vs) = _
        rw [foldAgg_cons, ih]
        rfl
      rw [h2, updLoc_optMerge, optMerge_assoc]

theorem aggObs_append (vs ws : List Int) :
    aggObs (vs ++ ws) = optMerge (aggObs vs) (aggObs ws) := by
  unfold aggObs
  rw [foldAgg_append, foldAgg_eq_optMerge ws (foldAgg none vs), foldAgg_eq_optMerge vs none]
  rw [optMerge_none_left]
  rfl

theorem lookup_addObs (obs : List (List Char × Int)) :
    ∀ (m : LocationMap) (k : List Char),
      (addObs m obs).lookup k = foldAgg (m.lookup k) (keyVals obs k) := by
  induction obs with
  | nil => intro m k; rfl
  | cons o os ih =>
      intro m k
      have hstep : addObs m (o :: os) = addObs (chunkStep m o.1 (singletonLoc o.2)) os := rfl
      rw [hstep, ih]
      by_cases h : o.1 = k
      · rw [keyVals_cons_self h, foldAgg_cons]
        have : (chunkStep m o.1 (singletonLoc o.2)).lookup k = some (updLoc (m.lookup k) o.2) := by
          rw [chunkStep_eq, lookup_mapInsert]
          simp [h]
        rw [this]
      · have hne : ¬ (k = o.1) := fun hh => h hh.symm
        rw [keyVals_cons_ne h]
        have : (chunkStep m o.1 (singletonLoc o.2)).lookup k = m.lookup k := by
          rw [chunkStep_eq, lookup_mapInsert, if_neg hne]
        rw [this]

theorem keysNodup_addObs (obs : List (List Char × Int)) :
    ∀ (m : LocationMap), (m.map Prod.fst).Nodup → ((addObs m obs).map Prod.fst).Nodup := by
  induction obs with
  | nil => intro m h; exact h
  | cons o os ih =>
      intro m h
      have hstep : addObs m (o :: os) = addObs (chunkStep m o.1 (singletonLoc o.2)) os := rfl
      rw [hstep]
      apply ih
      rw [chunkStep_eq]
      exact keysNodup_mapInsert _ _ _ h

theorem keysNodup_chunkMapOf (g : List (List Char)) :
    ((chunkMapOf g).map Prod.fst).Nodup := by
  unfold chunkMapOf
  exact keysNodup_addObs _ [] (by simp)

theorem lookup_chunkMapOf (g : List (List Char)) (k : List Char) :
    (chunkMapOf g).lookup k = aggObs (keyVals (obsOf g) k) := by
  unfold chunkMapOf aggObs
  rw [lookup_addObs]
  rfl

/-! ### Well-formedness of the aggregation state -/

theorem StateWF_nil : StateWF ([], []) := by
  refine ⟨List.nodup_nil, ?_, List.nodup_nil⟩
  intro k
  simp [lookup_nil]

theorem StateWF_insert_step {acc : List (List Char) × LocationMap} (h : StateWF acc)
    (k : List Char) (v : Location) :
    StateWF ((if acc.2.lookup k = none then acc.1 ++ [k] else acc.1),
      mapInsert acc.2 k v) := by
  obtain ⟨h1, h2, h3⟩ := h
  refine ⟨?_, ?_, keysNodup_mapInsert _ _ _ h3⟩
  · rcases hl : acc.2.lookup k with _ | loc
    · simp only [if_pos rfl]
      have hk : k ∉ acc.1 := fun hmem => ((h2 k).mp hmem) hl
      simp [List.nodup_append, h1, hk]
    · simp only [hl]
      simpa using h1
  · intro k'
    rw [lookup_mapInsert]
    by_cases hk : k' = k
    · subst hk
      rcases hl : acc.2.lookup k' with _ | loc
      · simp [hl]
      · have hmem : k' ∈ acc.1 := (h2 k').mpr (by simp [hl])
        simp [hl, hmem]
    · rcases hl : acc.2.lookup k with _ | loc <;> simp [hl, hk, h2 k']

theorem StateWF_seqStep {acc : List (List Char) × LocationMap} (h : StateWF acc)
    (k : List Char) (v : Int) : StateWF (seqStep acc k v) := by
  rw [seqStep_eq]
  exact StateWF_insert_step h k _

theorem StateWF_mmStep {acc : List (List Char) × LocationMap} (h : StateWF acc)
    (kv : List Char × Location) : StateWF (mmStep acc kv) := by
  rw [mmStep_eq]
  exact StateWF_insert_step h kv.1 _

theorem StateWF_seqFold_from (obs : List (List Char × Int)) :
    ∀ acc, StateWF acc → StateWF (obs.foldl (fun a o => seqStep a o.1 o.2) acc) := by
  induction obs with
  | nil => intro acc h; exact h
  | cons o os ih => intro acc h; exact ih _ (StateWF_seqStep h o.1 o.2)

theorem StateWF_seqFold (obs : List (List Char × Int)) : StateWF (seqFold obs) :=
  StateWF_seqFold_from obs ([], []) StateWF_nil

theorem StateWF_mergeMini {acc : List (List Char) × LocationMap} (h : StateWF acc)
    (mini : LocationMap) : StateWF (mergeMini acc mini) := by
  unfold mergeMini
  induction mini generalizing acc with
  | nil => exact h
  | cons kv rest ih => exact ih (StateWF_mmStep h kv)

theorem StateWF_mergeAll (maps : List LocationMap) : StateWF (mergeAll maps) := by
  unfold mergeAll
  have : ∀ acc, StateWF acc → StateWF (maps.foldl mergeMini acc) := by
    induction maps with
    | nil => intro acc h; exact h
    | cons m rest ih => intro acc h; exact ih _ (StateWF_mergeMini h m)
  exact this ([], []) StateWF_nil

/-! ### The sequential fold and the merge fold compute the same map -/

theorem seqFold_from_snd (obs : List (List Char × Int)) :
    ∀ acc, (obs.foldl (fun a o => seqStep a o.1 o.2) acc).2 = addObs acc.2 obs := by
  induction obs with
  | nil => intro acc; rfl
  | cons o os ih =>
      intro acc
      have : (seqStep acc o.1 o.2).2 = chunkStep acc.2 o.1 (singletonLoc o.2) := by
        rw [seqStep_eq, chunkStep_eq]
      calc (List.foldl (fun a o => seqStep a o.1 o.2) (seqStep acc o.1 o.2) os).2
          = addObs (seqStep acc o.1 o.2).2 os := ih _
        _ = addObs acc.2 (o :: os) := by rw [this]; rfl

theorem lookup_seqFold (obs : List (List Char × Int)) (k : List Char) :
    (seqFold obs).2.lookup k = aggObs (keyVals obs k) := by
  unfold seqFold
  rw [seqFold_from_snd obs ([], [])]
  rw [lookup_addObs]
  rfl

theorem lookup_mergeMini {mini : LocationMap} (hnd : (mini.map Prod.fst).Nodup) :
    ∀ (acc : List (List Char) × LocationMap) (k : List Char),
      (mergeMini acc mini).2.lookup k = optMerge (acc.2.lookup k) (mini.lookup k) := by
  unfold mergeMini
  induction mini with
  | nil =>
      intro acc k
      rw [lookup_nil, optMerge_none_right]
      rfl
  | cons kv rest ih =>
      intro acc k
      obtain ⟨kk, vv⟩ := kv
      simp only [List.map_cons, List.nodup_cons] at hnd
      obtain ⟨hk1, hk2⟩ := hnd
      rw [List.foldl_cons, ih hk2]
      by_cases hk : k = kk
      · subst hk
        have hrest : rest.lookup k = none := (lookup_eq_none_iff rest k).mpr hk1
        rw [hrest, lookup_cons_self, lookup_mmStep, if_pos rfl, optMerge_none_right]
      · rw [lookup_cons_ne k kk vv rest hk, lookup_mmStep, if_neg hk]

theorem lookup_mergeAll_from (maps : List LocationMap)
    (hnd : ∀ m ∈ maps, (m.map Prod.fst).Nodup) :
    ∀ (acc : List (List Char) × LocationMap) (k : List Char),
      (maps.foldl mergeMini acc).2.lookup k =
        (maps.map (fun m => m.lookup k)).foldl optMerge (acc.2.lookup k) := by
  induction maps with
  | nil => intro acc k; rfl
  | cons m rest ih =>
      intro acc k
      rw [List.foldl_cons, ih (fun x hx => hnd x (by simp [hx])), List.map_cons,
        List.foldl_cons, lookup_mergeMini (hnd m (by simp))]

theorem lookup_mergeAll (maps : List LocationMap)
    (hnd : ∀ m ∈ maps, (m.map Prod.fst).Nodup) (k : List Char) :
    (mergeAll maps).2.lookup k = (maps.map (fun m => m.lookup k)).foldl optMerge none := by
  unfold mergeAll
  rw [lookup_mergeAll_from maps hnd ([], []) k]
  rfl

theorem foldl_optMerge_perm {l1 l2 : List (Option Location)} (hp : l1.Perm l2) :
    ∀ init, l1.foldl optMerge init = l2.foldl optMerge init := by
  induction hp with
  | nil => intro init; rfl
  | cons x _ ih => intro init; simp only [List.foldl_cons]; exact ih _
  | swap x y t =>
      intro init
      simp only [List.foldl_cons]
      rw [optMerge_assoc, optMerge_assoc, optMerge_comm x y]
  | trans _ _ ih1 ih2 => intro init; rw [ih1, ih2]

theorem foldl_optMerge_map_agg (vss : List (List Int)) :
    ∀ init, (vss.map aggObs).foldl optMerge init = optMerge init (aggObs vss.flatten) := by
  induction vss with
  | nil =>
      intro init
      simp only [List.map_nil, List.foldl_nil, List.flatten_nil]
      exact (optMerge_none_right init).symm
  | cons vs rest ih =>
      intro init
      simp only [List.map_cons, List.foldl_cons, List.flatten_cons]
      rw [ih, aggObs_append, ← optMerge_assoc]

/-! ### The byte-wise key order and the final sort -/

theorem keyLe_total : ∀ a b : List Char, keyLe a b = true ∨ keyLe b a = true := by
  intro a
  induction a with
  | nil => intro b; left; rfl
  | cons x xs ih =>
      intro b
      cases b with
      | nil => right; rfl
      | cons y ys =>
          by_cases hxy : x = y
          · subst hxy
            simp only [keyLe, if_pos rfl]
            exact ih ys
          · have hyx : ¬ (y = x) := fun hh => hxy hh.symm
            simp only [keyLe, if_neg hxy, if_neg hyx]
            rcases lt_or_gt_of_ne hxy with h | h
            · left; simpa using h
            · right; simpa using h

theorem keyLe_trans : ∀ a b c : List Char,
    keyLe a b = true → keyLe b c = true → keyLe a c = true := by
  intro a
  induction a with
  | nil => intro b c _ _; rfl
  | cons x xs ih =>
      intro b c hab hbc
      cases b with
      | nil => simp [keyLe] at hab
      | cons y ys =>
          cases c with
          | nil => simp [keyLe] at hbc
          | cons z zs =>
              by_cases hxy : x = y
              · subst hxy
                simp only [keyLe, if_pos rfl] at hab
                by_cases hyz : x = z
                · subst hyz
                  simp only [keyLe, if_pos rfl] at hbc ⊢
                  exact ih ys zs hab hbc
                · simp only [keyLe, if_neg hyz] at hbc ⊢
                  exact hbc
              · simp only [keyLe, if_neg hxy] at hab
                have hxy' : x < y := by simpa using hab
                by_cases hyz : y = z
                · subst hyz
                  simp only [keyLe, if_neg hxy]
                  simpa using hxy'
                · simp only [keyLe, if_neg hyz] at hbc
                  have hyz' : y < z := by simpa using hbc
                  have hxz' : x < z := lt_trans hxy' hyz'
                  have hxz : ¬ (x = z) := ne_of_lt hxz'
                  simp only [keyLe, if_neg hxz]
                  simpa using hxz'

theorem keyLe_antisymm : ∀ a b : List Char,
    keyLe a b = true → keyLe b a = true → a = b := by
  intro a
  induction a with
  | nil =>
      intro b hab hba
      cases b with
      | nil => rfl
      | cons y ys => simp [keyLe] at hba
  | cons x xs ih =>
      intro b hab hba
      cases b with
      | nil => simp [keyLe] at hab
      | cons y ys =>
          by_cases hxy : x = y
          · subst hxy
            simp only [keyLe, if_pos rfl] at hab hba
            rw [ih ys hab hba]
          · have hyx : ¬ (y = x) := fun hh => hxy hh.symm
            simp only [keyLe, if_neg hxy] at hab
            simp only [keyLe, if_neg hyx] at hba
            have h1 : x < y := by simpa using hab
            have h2 : y < x := by simpa using hba
            exact absurd h2 (lt_asymm h1)

instance : IsTotal (List Char) (fun a b => keyLe a b = true) := ⟨keyLe_total⟩

instance : IsTrans (List Char) (fun a b => keyLe a b = true) := ⟨keyLe_trans⟩

instance : IsAntisymm (List Char) (fun a b => keyLe a b = true) := ⟨keyLe_antisymm⟩

theorem sortKeys_sorted (l : List (List Char)) :
    List.Sorted (fun a b => keyLe a b = true) (sortKeys l) :=
  List.sorted_insertionSort _ l

theorem sortKeys_perm (l : List (List Char)) : (sortKeys l).Perm l :=
  List.perm_insertionSort _ l

theorem sortKeys_eq_of_perm {l1 l2 : List (List Char)} (h : l1.Perm l2) :
    sortKeys l1 = sortKeys l2 :=
  List.eq_of_perm_of_sorted ((sortKeys_perm l1).trans (h.trans (sortKeys_perm l2).symm))
    (sortKeys_sorted l1) (sortKeys_sorted l2)

theorem brStep_congr {m1 m2 : LocationMap} {k : List Char} (h : m1.lookup k = m2.lookup k) :
    ∀ acc, brStep m1 acc k = brStep m2 acc k := by
  intro acc
  unfold brStep
  rw [h]

theorem buildResult_congr {sorted : List (List Char)} {m1 m2 : LocationMap}
    (h : ∀ k ∈ sorted, m1.lookup k = m2.lookup k) :
    buildResult sorted m1 = buildResult sorted m2 := by
  unfold buildResult
  have : ∀ acc, sorted.foldlM (brStep m1) acc = sorted.foldlM (brStep m2) acc := by
    induction sorted with
    | nil => intro acc; rfl
    | cons k rest ih =>
        intro acc
        rw [List.foldlM_cons, List.foldlM_cons,
          brStep_congr (h k (by simp)) acc]
        cases brStep m2 acc k with
        | none => rfl
        | some acc2 => simpa using ih (fun x hx => h x (by simp [hx])) acc2
  rw [this]

theorem createResult_congr {l1 l2 : List (List Char)} {m1 m2 : LocationMap}
    (hperm : l1.Perm l2) (hm : ∀ k, m1.lookup k = m2.lookup k) :
    createResult l1 m1 = createResult l2 m2 := by
  unfold createResult
  rw [sortKeys_eq_of_perm hperm]
  exact buildResult_congr (fun k _ => hm k)

/-! ### Merging the chunk maps in any order equals the sequential fold -/

theorem obsOf_append (a b : List (List Char)) : obsOf (a ++ b) = obsOf a ++ obsOf b := by
  simp [obsOf, List.filterMap_append]

theorem keyVals_obsOf_flatten (gs : List (List (List Char))) (k : List Char) :
    (gs.map (fun g => keyVals (obsOf g) k)).flatten = keyVals (obsOf gs.flatten) k := by
  induction gs with
  | nil => rfl
  | cons g rest ih =>
      simp only [List.map_cons, List.flatten_cons, List.flatten_cons, ih]
      rw [obsOf_append, keyVals_append]

theorem lookup_mergeAll_groups {gs : List (List (List Char))} {arrived : List LocationMap}
    (hperm : arrived.Perm (gs.map chunkMapOf)) (k : List Char) :
    (mergeAll arrived).2.lookup k = aggObs (keyVals (obsOf gs.flatten) k) := by
  have hnd : ∀ m ∈ arrived, (m.map Prod.fst).Nodup := by
    intro m hm
    have hm2 : m ∈ gs.map chunkMapOf := hperm.mem_iff.mp hm
    obtain ⟨g, _, hg⟩ := List.mem_map.mp hm2
    rw [← hg]
    exact keysNodup_chunkMapOf g
  rw [lookup_mergeAll arrived hnd k]
  rw [foldl_optMerge_perm (hperm.map (fun m => m.lookup k)) none]
  have hmm : (gs.map chunkMapOf).map (fun m => m.lookup k)
      = (gs.map (fun g => keyVals (obsOf g) k)).map aggObs := by
    rw [List.map_map, List.map_map]
    exact List.map_congr_left (fun g _ => lookup_chunkMapOf g k)
  rw [hmm, foldl_optMerge_map_agg _ none, optMerge_none_left, keyVals_obsOf_flatten]

theorem mergeAll_eq_seqFold {lines : List (List Char)} {gs : List (List (List Char))}
    (hgs : gs.flatten = lines) {arrived : List LocationMap}
    (hperm : arrived.Perm (gs.map chunkMapOf)) :
    concResult arrived = createResult (seqFold (obsOf lines)).1 (seqFold (obsOf lines)).2 := by
  subst hgs
  have hlook : ∀ k, (mergeAll arrived).2.lookup k = (seqFold (obsOf gs.flatten)).2.lookup k := by
    intro k
    rw [lookup_mergeAll_groups hperm k, lookup_seqFold]
  have hwf1 := StateWF_mergeAll arrived
  have hwf2 := StateWF_seqFold (obsOf gs.flatten)
  obtain ⟨hn1, hm1, _⟩ := hwf1
  obtain ⟨hn2, hm2, _⟩ := hwf2
  have hkeys : (mergeAll arrived).1.Perm (seqFold (obsOf gs.flatten)).1 := by
    rw [List.perm_ext_iff_of_nodup hn1 hn2]
    intro k
    rw [hm1 k, hm2 k, hlook k]
  unfold concResult
  exact createResult_congr hkeys hlook

/-! ### The backward boundary scan -/

theorem readAt_neg {file : List Char} {i : Int} (h : i < 0) : readAt file i = none := by
  simp [readAt, h]

theorem readAt_eof {file : List Char} {i : Int} (h : (file.length : Int) ≤ i) :
    readAt file i = none := by
  have h0 : ¬ (i < 0) := by omega
  have hlen : file.length ≤ i.toNat := by omega
  rw [readAt, if_neg h0]
  exact List.get?_eq_none.mpr hlen

theorem readAt_in {file : List Char} {i : Int} (h0 : 0 ≤ i) (h : i < (file.length : Int)) :
    ∃ c, readAt file i = some c := by
  have hlt : i.toNat < file.length := by omega
  refine ⟨file.get ⟨i.toNat, hlt⟩, ?_⟩
  simp [readAt, show ¬ (i < 0) by omega, List.get?_eq_get hlt]

theorem readAt_nonneg {file : List Char} {i : Int} {c : Char} (h : readAt file i = some c) :
    0 ≤ i := by
  by_contra hneg
  rw [readAt_neg (by omega)] at h
  cases h

theorem fnlb_none {file : List Char} {s : Int} (h : readAt file s = none) :
    findNextLineBoundary file s = s := by
  unfold findNextLineBoundary
  rw [h]

theorem fnlb_nl {file : List Char} {s : Int} (h : readAt file s = some '\n') :
    findNextLineBoundary file s = s := by
  unfold findNextLineBoundary
  rw [h]
  simp

theorem fnlb_step {file : List Char} {s : Int} {c : Char} (h : readAt file s = some c)
    (hc : ¬ c = '\n') : findNextLineBoundary file s = findNextLineBoundary file (s - 1) := by
  conv_lhs => rw [findNextLineBoundary]
  rw [h]
  simp [hc]

theorem fnlb_eof {file : List Char} {s : Int} (h : (file.length : Int) ≤ s) :
    findNextLineBoundary file s = s :=
  fnlb_none (readAt_eof h)

theorem fnlb_le (file : List Char) (s : Int) : findNextLineBoundary file s ≤ s := by
  generalize hm : (s + 1).toNat = n
  induction n using Nat.strong_induction_on generalizing s with
  | _ n ih =>
      rcases h : readAt file s with _ | c
      · rw [fnlb_none h]
      · by_cases hc : c = '\n'
        · subst hc; rw [fnlb_nl h]
        · rw [fnlb_step h hc]
          have h0 : 0 ≤ s := readAt_nonneg h
          have hrec := ih s.toNat (by omega) (s - 1) (by omega)
          omega

theorem fnlb_find {file : List Char} {b : Int} (hb : readAt file b = some '\n') :
    ∀ e : Int, b ≤ e → e < (file.length : Int) →
      (∀ j, b < j → j ≤ e → readAt file j ≠ some '\n') →
      findNextLineBoundary file e = b := by
  intro e
  generalize hm : (e - b).toNat = n
  induction n using Nat.strong_induction_on generalizing e with
  | _ n ih =>
      intro hbe hlt hno
      rcases eq_or_lt_of_le hbe with heq | hlt2
      · subst heq; exact fnlb_nl hb
      · have h0b : 0 ≤ b := readAt_nonneg hb
        obtain ⟨c, hc⟩ := readAt_in (by omega) hlt
        have hcnl : ¬ c = '\n' := by
          intro hh
          subst hh
          exact hno e hlt2 le_rfl hc
        rw [fnlb_step hc hcnl]
        exact ih (e - 1 - b).toNat (by omega) (e - 1) (by omega) (by omega) (by omega)
          (fun j h1 h2 => hno j h1 (by omega))

theorem fnlb_neg {file : List Char} :
    ∀ e : Int, -1 ≤ e → e < (file.length : Int) →
      (∀ j, 0 ≤ j → j ≤ e → readAt file j ≠ some '\n') →
      findNextLineBoundary file e = -1 := by
  intro e
  generalize hm : (e + 1).toNat = n
  induction n using Nat.strong_induction_on generalizing e with
  | _ n ih =>
      intro hge hlt hno
      rcases eq_or_lt_of_le hge with heq | hgt
      · rw [← heq]
        exact fnlb_none (readAt_neg (by omega))
      · obtain ⟨c, hc⟩ := readAt_in (by omega) hlt
        have hcnl : ¬ c = '\n' := by
          intro hh
          subst hh
          exact hno e (by omega) le_rfl hc
        rw [fnlb_step hc hcnl]
        exact ih (e - 1 + 1).toNat (by omega) (e - 1) (by omega) (by omega) (by omega)
          (fun j h1 h2 => hno j h1 (by omega))

/-! ### Reading inside a structured file -/

theorem readAt_append_left {a b : List Char} {i : Int} (h0 : 0 ≤ i)
    (h : i < (a.length : Int)) : readAt (a ++ b) i = readAt a i := by
  have hlt : i.toNat < a.length := by omega
  rw [readAt, readAt, if_neg (by omega), if_neg (by omega)]
  exact List.get?_append hlt

theorem readAt_append_right {a b : List Char} {i : Int} (h : (a.length : Int) ≤ i) :
    readAt (a ++ b) i = readAt b (i - a.length) := by
  have h0 : 0 ≤ i := le_trans (by positivity) h
  rw [readAt, readAt, if_neg (by omega), if_neg (by omega)]
  have h1 : a.length ≤ i.toNat := by omega
  rw [List.get?_append_right h1]
  congr 1
  omega

theorem sizeT_nil : sizeT [] = 0 := rfl

theorem sizeT_cons (l : List Char) (ls : List (List Char)) :
    sizeT (l :: ls) = l.length + 1 + sizeT ls := by
  simp [sizeT]

theorem sizeT_append (a b : List (List Char)) : sizeT (a ++ b) = sizeT a + sizeT b := by
  simp [sizeT]

theorem sizeT_pos {done : List (List Char)} (h : done ≠ []) : 1 ≤ sizeT done := by
  cases done with
  | nil => exact absurd rfl h
  | cons l ls => rw [sizeT_cons]; omega

theorem fileOf_concat_nl {done : List (List Char)} (h : done ≠ []) :
    ∃ pre : List Char, fileOf done = pre ++ ['\n'] ∧ pre.length + 1 = sizeT done := by
  induction done with
  | nil => exact absurd rfl h
  | cons l ls ih =>
      cases ls with
      | nil =>
          refine ⟨l, ?_, ?_⟩
          · simp [fileOf]
          · rw [sizeT_cons, sizeT_nil]
      | cons l2 ls2 =>
          obtain ⟨pre, hpre, hlen⟩ := ih (by simp)
          refine ⟨l ++ '\n' :: pre, ?_, ?_⟩
          · rw [fileOf_cons, hpre]
            simp
          · rw [sizeT_cons]
            simp at hlen ⊢
            omega

theorem readAt_fileOf_end {done : List (List Char)} (h : done ≠ []) (tail : List Char) :
    readAt (fileOf done ++ tail) ((sizeT done : Int) - 1) = some '\n' := by
  obtain ⟨pre, hpre, hlen⟩ := fileOf_concat_nl h
  rw [hpre]
  have harr : (pre ++ ['\n']) ++ tail = pre ++ '\n' :: tail := by simp
  rw [harr]
  have hidx : (sizeT done : Int) - 1 = (pre.length : Int) := by omega
  rw [hidx, readAt, if_neg (by omega)]
  have : (pre.length : Int).toNat = pre.length := by omega
  rw [this]
  rw [List.get?_append_right le_rfl]
  simp

theorem drop_fileOf_done {done rest : List (List Char)} (h : done ≠ []) :
    (fileOf (done ++ rest)).drop (sizeT done - 1) = '\n' :: fileOf rest := by
  obtain ⟨pre, hpre, hlen⟩ := fileOf_concat_nl h
  rw [fileOf_append, hpre]
  have harr : (pre ++ ['\n']) ++ fileOf rest = pre ++ '\n' :: fileOf rest := by simp
  rw [harr]
  have hidx : sizeT done - 1 = pre.length := by omega
  rw [hidx]
  rw [List.drop_append_eq_append_drop]
  simp

theorem no_nl_in_line {pre l tail : List Char} (hl : ∀ c ∈ l, c ≠ '\n') {j : Int}
    (h1 : (pre.length : Int) ≤ j) (h2 : j < (pre.length : Int) + l.length) :
    readAt (pre ++ (l ++ tail)) j ≠ some '\n' := by
  rw [readAt_append_right h1]
  have hj : 0 ≤ j - pre.length := by omega
  have hjl : j - pre.length < (l.length : Int) := by omega
  rw [readAt_append_left hj hjl]
  intro hcon
  have hmem : '\n' ∈ l := by
    rw [readAt, if_neg (by omega)] at hcon
    exact List.get?_mem hcon
  exact hl '\n' hmem rfl

/-! ### How many whole lines fit in a chunk -/

theorem fitCount_le (n : Nat) (ls : List (List Char)) : fitCount n ls ≤ ls.length := by
  induction ls generalizing n with
  | nil => simp [fitCount]
  | cons l t ih =>
      simp only [fitCount, List.length_cons]
      split_ifs with h1 h2
      · have := ih (n - (l.length + 1))
        omega
      · omega
      · omega

theorem fitCount_size_le (n : Nat) (ls : List (List Char)) :
    sizeT (ls.take (fitCount n ls)) ≤ n + 1 := by
  induction ls generalizing n with
  | nil => simp [fitCount, sizeT]
  | cons l t ih =>
      simp only [fitCount]
      split_ifs with h1 h2
      · rw [List.take_succ_cons, sizeT_cons]
        have := ih (n - (l.length + 1))
        omega
      · rw [List.take_succ_cons, List.take_zero, sizeT_cons, sizeT_nil]
        omega
      · simp [sizeT]

theorem fitCount_next {n : Nat} {ls : List (List Char)} (h : fitCount n ls < ls.length) :
    n + 1 < sizeT (ls.take (fitCount n ls + 1)) := by
  induction ls generalizing n with
  | nil => simp at h
  | cons l t ih =>
      simp only [fitCount] at h ⊢
      split_ifs with h1 h2
      · rw [List.take_succ_cons, sizeT_cons]
        simp only [fitCount, List.length_cons] at h
        rw [if_pos h1] at h
        have := @ih (n - (l.length + 1)) (by omega)
        omega
      · rw [List.take_succ_cons]
        rw [if_neg h1, if_pos h2] at h
        simp only [List.length_cons] at h
        rcases t with _ | ⟨l2, t2⟩
        · simp at h
        · rw [List.take_succ_cons, List.take_zero, sizeT_cons, sizeT_cons, sizeT_nil]
          omega
      · rw [List.take_succ_cons, List.take_zero, sizeT_cons, sizeT_nil]
        omega

theorem fitCount_pos {n : Nat} {l : List Char} (ls : List (List Char)) (h : l.length ≤ n) :
    1 ≤ fitCount n (l :: ls) := by
  simp only [fitCount]
  split_ifs <;> omega

theorem fitCount_full (ls : List (List Char)) : fitCount (sizeT ls) ls = ls.length := by
  induction ls with
  | nil => rfl
  | cons l t ih =>
      rw [fitCount, sizeT_cons]
      have h1 : l.length + 1 ≤ l.length + 1 + sizeT t := by omega
      rw [if_pos h1]
      have h2 : l.length + 1 + sizeT t - (l.length + 1) = sizeT t := by omega
      rw [h2, ih, List.length_cons]

/-! ### Processing a clipped chunk of a newline-terminated file -/

theorem fileOf_take_large {l : List Char} {ls : List (List Char)} {n : Nat}
    (h : l.length + 1 ≤ n) :
    (fileOf (l :: ls)).take n = l ++ '\n' :: (fileOf ls).take (n - (l.length + 1)) := by
  rw [fileOf_cons, List.take_append_eq_append_take, List.take_of_length_le (by omega)]
  have h2 : n - l.length = (n - (l.length + 1)) + 1 := by omega
  rw [h2, List.take_succ_cons]

theorem fileOf_take_small {l : List Char} {ls : List (List Char)} {n : Nat}
    (h : n ≤ l.length) : (fileOf (l :: ls)).take n = l.take n := by
  rw [fileOf_cons, List.take_append_eq_append_take]
  have h2 : n - l.length = 0 := by omega
  simp [h2]

theorem foldlM_pcStep_single (m : LocationMap) (piece : List Char) :
    [piece].foldlM pcStep m = pcStep m piece := by
  rw [List.foldlM_cons]
  cases pcStep m piece <;> rfl

theorem pcStep_valid {l : List Char} (h : validLine l = true) (m : LocationMap) :
    ∃ key v, lineObs l = some (key, v) ∧ pcStep m l = some (addObs m [(key, v)]) := by
  obtain ⟨key, val, v, hl, hval, hidx, hv, hpl, hobs⟩ := processLine_valid h
  refine ⟨key, v, hobs, ?_⟩
  rw [pcStep, hpl]
  rfl

theorem chunkFold_take {ls : List (List Char)} (hv : ∀ l ∈ ls, validLine l = true) :
    ∀ (n : Nat) (m : LocationMap),
      (splitOnNl ((fileOf ls).take n)).foldlM pcStep m
        = some (addObs m (obsOf (ls.take (fitCount n ls)))) := by
  induction ls with
  | nil =>
      intro n m
      simp only [fileOf_nil, List.take_nil]
      rw [show splitOnNl [] = [[]] from rfl, foldlM_pcStep_single, pcStep, processLine_nil]
      rfl
  | cons l ls ih =>
      intro n m
      have hlv := hv l (by simp)
      have hlsnl : ∀ c ∈ l, c ≠ '\n' := validLine_no_nl hlv
      obtain ⟨key, v, hobs, hstep⟩ := pcStep_valid hlv m
      rcases le_or_lt (l.length + 1) n with hbig | hsmall
      · rw [fileOf_take_large hbig, splitOnNl_append_nl _ hlsnl, List.foldlM_cons, hstep]
        have hbind : ∀ (x : LocationMap) (rest : List (List Char)),
            (some x >>= fun mm => rest.foldlM pcStep mm) = rest.foldlM pcStep x := by
          intro x rest; rfl
        rw [hbind]
        rw [ih (fun x hx => hv x (by simp [hx])) (n - (l.length + 1)) (addObs m [(key, v)])]
        have hfc : fitCount n (l :: ls) = fitCount (n - (l.length + 1)) ls + 1 := by
          rw [fitCount, if_pos hbig]
        rw [hfc, List.take_succ_cons]
        have hobsc : obsOf (l :: ls.take (fitCount (n - (l.length + 1)) ls))
            = (key, v) :: obsOf (ls.take (fitCount (n - (l.length + 1)) ls)) := by
          simp [obsOf, List.filterMap_cons, hobs]
        rw [hobsc]
        rfl
      · rcases eq_or_lt_of_le (show n ≤ l.length by omega) with heq | hlt
        · subst heq
          rw [fileOf_take_small le_rfl, List.take_length]
          rw [splitOnNl_no_nl hlsnl, foldlM_pcStep_single, hstep]
          have hfc : fitCount l.length (l :: ls) = 1 := by
            rw [fitCount, if_neg (by omega), if_pos (by omega)]
          rw [hfc, List.take_succ_cons, List.take_zero]
          have hobsc : obsOf [l] = [(key, v)] := by
            simp [obsOf, List.filterMap_cons, hobs]
          rw [hobsc]
        · rw [fileOf_take_small (by omega)]
          have htnl : ∀ c ∈ l.take n, c ≠ '\n' := fun c hc => hlsnl c (List.take_subset n l hc)
          rw [splitOnNl_no_nl htnl, foldlM_pcStep_single, pcStep,
            processLine_take_of_valid hlv n hlt]
          have hfc : fitCount n (l :: ls) = 0 := by
            rw [fitCount, if_neg (by omega), if_neg (by omega)]
          rw [hfc, List.take_zero]
          rfl

theorem processChunk_take {rest : List (List Char)} (hv : ∀ l ∈ rest, validLine l = true)
    (n : Nat) :
    processChunk ((fileOf rest).take n) = some (chunkMapOf (rest.take (fitCount n rest))) := by
  unfold processChunk chunkMapOf
  exact chunkFold_take hv n []

theorem processChunk_nl_take {rest : List (List Char)} (hv : ∀ l ∈ rest, validLine l = true)
    (n : Nat) :
    processChunk ('\n' :: (fileOf rest).take n)
      = some (chunkMapOf (rest.take (fitCount n rest))) := by
  unfold processChunk chunkMapOf
  rw [splitOnNl_cons_nl, List.foldlM_cons]
  rw [show pcStep [] [] = some ([] : LocationMap) by rw [pcStep, processLine_nil]]
  exact chunkFold_take hv n []

theorem processChunk_full {rest : List (List Char)} (hv : ∀ l ∈ rest, validLine l = true) :
    processChunk (fileOf rest) = some (chunkMapOf rest) := by
  have h := processChunk_take hv (sizeT rest)
  rw [← length_fileOf rest, List.take_length, length_fileOf rest, fitCount_full,
    List.take_length] at h
  exact h

theorem processChunk_nl_full {rest : List (List Char)} (hv : ∀ l ∈ rest, validLine l = true) :
    processChunk ('\n' :: fileOf rest) = some (chunkMapOf rest) := by
  have h := processChunk_nl_take hv (sizeT rest)
  rw [← length_fileOf rest, List.take_length, length_fileOf rest, fitCount_full,
    List.take_length] at h
  exact h

theorem readChunk_some {file : List Char} {s e : Int} (h0 : 0 ≤ s)
    (he : e ≤ (file.length : Int)) :
    readChunk file s e = some ((file.drop s.toNat).take (e - s).toNat) := by
  rw [readChunk, if_neg (by omega)]

/-! ### Generic structure of the dispatched ranges -/

theorem clampEnd_eq (cs size s : Int) :
    (if s + cs > size then size else s + cs) = min (s + cs) size := by
  rw [min_def]
  split_ifs <;> omega

theorem chunkRanges_stop {cs : Int} {file : List Char} {size : Int} {s : Int} (fuel : Nat)
    (h : size ≤ s) : chunkRanges cs file size (fuel + 1) s = some [] := by
  rw [chunkRanges, if_neg (by omega)]

theorem chunkRanges_det {cs : Int} {file : List Char} {size : Int} :
    ∀ (f1 : Nat) (f2 : Nat) (s : Int) (rs1 rs2 : List (Int × Int)),
      chunkRanges cs file size f1 s = some rs1 → chunkRanges cs file size f2 s = some rs2 →
      rs1 = rs2 := by
  intro f1
  induction f1 with
  | zero => intro f2 s rs1 rs2 h1; cases h1
  | succ f1 ih =>
      intro f2 s rs1 rs2 h1 h2
      cases f2 with
      | zero => cases h2
      | succ f2 =>
          rw [chunkRanges] at h1 h2
          by_cases hs : s < size
          · rw [if_pos hs] at h1 h2
            rcases hr1 : chunkRanges cs file size f1
                (findNextLineBoundary file (if s + cs > size then size else s + cs)) with _ | rest1
            · rw [hr1] at h1; cases h1
            · rcases hr2 : chunkRanges cs file size f2
                  (findNextLineBoundary file (if s + cs > size then size else s + cs)) with _ | rest2
              · rw [hr2] at h2; cases h2
              · rw [hr1] at h1
                rw [hr2] at h2
                simp only [Option.some.injEq] at h1 h2
                rw [← h1, ← h2, ih f2 _ rest1 rest2 hr1 hr2]
          · rw [if_neg hs] at h1 h2
            simp only [Option.some.injEq] at h1 h2
            rw [← h1, ← h2]

theorem chunkRanges_succ_pos {cs : Int} {file : List Char} {size : Int} {fuel : Nat} {s : Int}
    {rs : List (Int × Int)} (hs : s < size)
    (h : chunkRanges cs file size (fuel + 1) s = some rs) :
    ∃ rest, rs = (s, min (s + cs) size) :: rest ∧
      chunkRanges cs file size fuel (findNextLineBoundary file (min (s + cs) size))
        = some rest := by
  rw [chunkRanges, if_pos hs] at h
  rcases hr : chunkRanges cs file size fuel
      (findNextLineBoundary file (if s + cs > size then size else s + cs)) with _ | rest
  · rw [hr] at h; cases h
  · rw [hr] at h
    simp only [Option.some.injEq] at h
    rw [clampEnd_eq] at hr
    refine ⟨rest, ?_, hr⟩
    rw [← h, clampEnd_eq]

theorem chunkRanges_succ_neg {cs : Int} {file : List Char} {size : Int} {fuel : Nat} {s : Int}
    {rs : List (Int × Int)} (hs : ¬ s < size)
    (h : chunkRanges cs file size (fuel + 1) s = some rs) : rs = [] := by
  rw [chunkRanges, if_neg hs] at h
  simp only [Option.some.injEq] at h
  exact h.symm

theorem chunkRanges_eq_nil {cs : Int} {file : List Char} {size : Int} :
    ∀ {fuel : Nat} {s : Int}, chunkRanges cs file size fuel s = some [] → size ≤ s := by
  intro fuel s h
  cases fuel with
  | zero => cases h
  | succ fuel =>
      by_cases hs : s < size
      · obtain ⟨rest, hcons, _⟩ := chunkRanges_succ_pos hs h
        cases hcons
      · omega

theorem chunkRanges_ends {cs : Int} {file : List Char} {size : Int} :
    ∀ {fuel : Nat} {s : Int} {rs : List (Int × Int)},
      chunkRanges cs file size fuel s = some rs → ∀ p ∈ rs, p.2 = min (p.1 + cs) size := by
  intro fuel
  induction fuel with
  | zero => intro s rs h; cases h
  | succ fuel ih =>
      intro s rs h p hp
      by_cases hs : s < size
      · obtain ⟨rest, hcons, hrec⟩ := chunkRanges_succ_pos hs h
        subst hcons
        rcases List.mem_cons.mp hp with hp | hp
        · subst hp; rfl
        · exact ih hrec p hp
      · rw [chunkRanges_succ_neg hs h] at hp
        cases hp

theorem chunkRanges_chain {cs : Int} {file : List Char} {size : Int} :
    ∀ {fuel : Nat} {s : Int} {rs : List (Int × Int)},
      chunkRanges cs file size fuel s = some rs →
      List.Chain' (fun p q => q.1 = findNextLineBoundary file p.2) rs := by
  intro fuel
  induction fuel with
  | zero => intro s rs h; cases h
  | succ fuel ih =>
      intro s rs h
      by_cases hs : s < size
      · obtain ⟨rest, hcons, hrec⟩ := chunkRanges_succ_pos hs h
        subst hcons
        rw [List.chain'_cons']
        refine ⟨?_, ih hrec⟩
        intro q hq
        cases fuel with
        | zero => cases hrec
        | succ fuel2 =>
            by_cases hs2 : findNextLineBoundary file (min (s + cs) size) < size
            · obtain ⟨rest2, hcons2, _⟩ := chunkRanges_succ_pos hs2 hrec
              subst hcons2
              simp only [List.head?_cons, Option.mem_def, Option.some.injEq] at hq
              rw [← hq]
            · rw [chunkRanges_succ_neg hs2 hrec] at hq
              simp at hq
      · rw [chunkRanges_succ_neg hs h]
        exact List.chain'_nil

theorem chunkRanges_first {cs : Int} {file : List Char} {size : Int} {fuel : Nat} {s : Int}
    {rs : List (Int × Int)} (h : chunkRanges cs file size fuel s = some rs) :
    rs = [] ∨ ∃ rest, rs = (s, min (s + cs) size) :: rest := by
  cases fuel with
  | zero => cases h
  | succ fuel =>
      by_cases hs : s < size
      · obtain ⟨rest, hcons, _⟩ := chunkRanges_succ_pos hs h
        exact Or.inr ⟨rest, hcons⟩
      · exact Or.inl (chunkRanges_succ_neg hs h)

theorem chunkRanges_last {cs : Int} {file : List Char} {size : Int} :
    ∀ {fuel : Nat} {s : Int} {rs : List (Int × Int)},
      chunkRanges cs file size fuel s = some rs → ∀ hne : rs ≠ [],
      (rs.getLast hne).2 = size := by
  intro fuel
  induction fuel with
  | zero => intro s rs h; cases h
  | succ fuel ih =>
      intro s rs h hne
      by_cases hs : s < size
      · obtain ⟨rest, hcons, hrec⟩ := chunkRanges_succ_pos hs h
        subst hcons
        rcases rest with _ | ⟨q, rest2⟩
        · simp only [List.getLast_singleton]
          have h1 : size ≤ findNextLineBoundary file (min (s + cs) size) :=
            chunkRanges_eq_nil hrec
          have h2 : findNextLineBoundary file (min (s + cs) size) ≤ min (s + cs) size :=
            fnlb_le file _
          omega
        · rw [List.getLast_cons (by simp)]
          exact ih hrec (by simp)
      · exact absurd (chunkRanges_succ_neg hs h) hne

theorem chunkRanges_cover {cs : Int} {file : List Char} {size : Int} :
    ∀ {fuel : Nat} {s : Int} {rs : List (Int × Int)},
      chunkRanges cs file size fuel s = some rs →
      ∀ p : Int, s ≤ p → p < size → ∃ q ∈ rs, q.1 ≤ p ∧ p < q.2 := by
  intro fuel
  induction fuel with
  | zero => intro s rs h; cases h
  | succ fuel ih =>
      intro s rs h p hsp hps
      by_cases hs : s < size
      · obtain ⟨rest, hcons, hrec⟩ := chunkRanges_succ_pos hs h
        subst hcons
        by_cases hpe : p < min (s + cs) size
        · exact ⟨(s, min (s + cs) size), by simp, hsp, hpe⟩
        · have hle : findNextLineBoundary file (min (s + cs) size) ≤ p := by
            have := fnlb_le file (min (s + cs) size)
            omega
          obtain ⟨q, hq, hq1, hq2⟩ := ih hrec p hle hps
          exact ⟨q, by simp [hq], hq1, hq2⟩
      · omega

/-! ### One orchestrator iteration -/

theorem chunkRanges_build {cs : Int} {file : List Char} {size s : Int} {fuel : Nat}
    {rest : List (Int × Int)} (hs : s < size)
    (hrec : chunkRanges cs file size fuel
      (findNextLineBoundary file (min (s + cs) size)) = some rest) :
    chunkRanges cs file size (fuel + 1) s = some ((s, min (s + cs) size) :: rest) := by
  rw [chunkRanges, if_pos hs, clampEnd_eq, hrec]

theorem wkStep_eval {file chunk : List Char} {s e : Int} {m : LocationMap}
    (hread : readChunk file s e = some chunk) (hproc : processChunk chunk = some m)
    (acc : List LocationMap) : wkStep file acc (s, e) = some (acc ++ [m]) := by
  simp only [wkStep, hread, hproc]

theorem foldlM_wkStep_cons (file : List Char) (q : Int × Int) (qs : List (Int × Int))
    (acc acc2 : List LocationMap) (h : wkStep file acc q = some acc2) :
    (q :: qs).foldlM (wkStep file) acc = qs.foldlM (wkStep file) acc2 := by
  rw [List.foldlM_cons, h]
  rfl

theorem slice_cons {lines done rest : List (List Char)} (hlines : lines = done ++ rest)
    (hne : done ≠ []) {e : Int} (hse : (sizeT done : Int) - 1 < e)
    (hesz : e ≤ (sizeT lines : Int)) :
    readChunk (fileOf lines) ((sizeT done : Int) - 1) e
      = some ('\n' :: (fileOf rest).take ((e - ((sizeT done : Int) - 1)).toNat - 1)) := by
  have hpos := sizeT_pos hne
  have h0 : (0:Int) ≤ (sizeT done : Int) - 1 := by omega
  rw [readChunk_some h0 (by rw [length_fileOf]; exact hesz)]
  congr 1
  have hdrop : (fileOf lines).drop ((sizeT done : Int) - 1).toNat = '\n' :: fileOf rest := by
    have ht : ((sizeT done : Int) - 1).toNat = sizeT done - 1 := by omega
    rw [ht, hlines]
    exact drop_fileOf_done hne
  rw [hdrop]
  have ht2 : (e - ((sizeT done : Int) - 1)).toNat
      = ((e - ((sizeT done : Int) - 1)).toNat - 1) + 1 := by omega
  conv_lhs => rw [ht2]
  rw [List.take_succ_cons]

theorem slice_zero {file : List Char} {e : Int} (hesz : e ≤ (file.length : Int)) :
    readChunk file 0 e = some (file.take e.toNat) := by
  rw [readChunk_some le_rfl hesz]
  simp

theorem validLine_length_pos {l : List Char} (h : validLine l = true) : 1 ≤ l.length := by
  obtain ⟨key, val, hl, _, _, _, _⟩ := validLine_decomp h
  subst hl
  simp
  omega

theorem boundary_found {lines done2 rest2 : List (List Char)}
    (hlines : lines = done2 ++ rest2) (hne : done2 ≠ [])
    (hvr : ∀ l ∈ rest2, validLine l = true)
    {e : Int} (hbe : (sizeT done2 : Int) - 1 ≤ e) (hesize : e < (sizeT lines : Int))
    (hnext : ∀ l' rest'', rest2 = l' :: rest'' → e < (sizeT done2 : Int) + l'.length) :
    findNextLineBoundary (fileOf lines) e = (sizeT done2 : Int) - 1 := by
  have hb_nl : readAt (fileOf lines) ((sizeT done2 : Int) - 1) = some '\n' := by
    rw [hlines, fileOf_append]
    exact readAt_fileOf_end hne (fileOf rest2)
  rcases rest2 with _ | ⟨l2, rest3⟩
  · have hsz : sizeT lines = sizeT done2 := by rw [hlines, sizeT_append, sizeT_nil]; omega
    have : e = (sizeT done2 : Int) - 1 := by omega
    rw [this]
    exact fnlb_nl hb_nl
  · have hl2 := hnext l2 rest3 rfl
    have hfile : fileOf lines = fileOf done2 ++ (l2 ++ ('\n' :: fileOf rest3)) := by
      rw [hlines, fileOf_append, fileOf_cons]
    apply fnlb_find hb_nl e hbe (by rw [length_fileOf]; exact hesize)
    intro j h1 h2
    rw [hfile]
    have hlnl : ∀ c ∈ l2, c ≠ '\n' := validLine_no_nl (hvr l2 (by simp))
    apply no_nl_in_line hlnl
    · rw [length_fileOf]
      omega
    · rw [length_fileOf]
      omega

theorem startOf_cons {done : List (List Char)} (h : done ≠ []) :
    startOf done = (sizeT done : Int) - 1 := by
  rw [startOf, if_neg h]

theorem orchestrate_base {cs : Int} (hcs : 1 ≤ cs) (lines : List (List Char))
    (hv : ∀ l ∈ lines, validLine l = true) (done : List (List Char))
    (hlines : lines = done ++ []) :
    ∃ (fuel : Nat) (rs : List (Int × Int)) (gs : List (List (List Char))),
      chunkRanges cs (fileOf lines) (sizeT lines) fuel (startOf done) = some rs ∧
      List.Chain' (fun p q => p.1 < q.1) rs ∧
      (∀ q ∈ rs, startOf done ≤ q.1) ∧
      gs.flatten = ([] : List (List Char)) ∧
      (∀ acc, rs.foldlM (wkStep (fileOf lines)) acc = some (acc ++ gs.map chunkMapOf)) := by
  rw [List.append_nil] at hlines
  rw [hlines] at hv ⊢
  clear hlines
  by_cases hd : done = []
  · subst hd
    refine ⟨1, [], [], ?_, List.chain'_nil, by intro q hq; simp at hq, rfl, ?_⟩
    · exact chunkRanges_stop 0 (by simp [sizeT_nil, startOf])
    · intro acc; simp
  · have hpos := sizeT_pos hd
    have hs : startOf done = (sizeT done : Int) - 1 := startOf_cons hd
    have hslt : startOf done < (sizeT done : Int) := by omega
    have hmin : min (startOf done + cs) (sizeT done : Int) = (sizeT done : Int) := by
      rw [hs]; omega
    have hfnl : findNextLineBoundary (fileOf done)
        (min (startOf done + cs) (sizeT done : Int)) = (sizeT done : Int) := by
      rw [hmin]
      exact fnlb_eof (by rw [length_fileOf])
    have hread : readChunk (fileOf done) ((sizeT done : Int) - 1) (sizeT done : Int)
        = some ('\n' :: (fileOf ([] : List (List Char))).take
            (((sizeT done : Int) - ((sizeT done : Int) - 1)).toNat - 1)) :=
      slice_cons (show done = done ++ [] by simp) hd (by omega) le_rfl
    have hproc : processChunk ('\n' :: (fileOf ([] : List (List Char))).take
        (((sizeT done : Int) - ((sizeT done : Int) - 1)).toNat - 1))
        = some (chunkMapOf ([] : List (List Char))) := by
      have := @processChunk_nl_take [] (by simp)
          ((((sizeT done : Int) - ((sizeT done : Int) - 1)).toNat - 1))
      simpa using this
    refine ⟨2, [(startOf done, (sizeT done : Int))], [[]], ?_, ?_, ?_, rfl, ?_⟩
    · have hrec : chunkRanges cs (fileOf done) (sizeT done : Int) 1
          (findNextLineBoundary (fileOf done)
            (min (startOf done + cs) (sizeT done : Int))) = some [] := by
        rw [hfnl]
        exact chunkRanges_stop 0 le_rfl
      have := chunkRanges_build hslt hrec
      rw [hmin] at this
      exact this
    · simp
    · intro q hq
      simp only [List.mem_singleton] at hq
      subst hq
      simp
    · intro acc
      have hwk := wkStep_eval hread hproc acc
      rw [hs]
      rw [foldlM_wkStep_cons _ _ _ _ _ hwk]
      simp

theorem orchestrate_aux {cs : Int} (hcs : 1 ≤ cs) (lines : List (List Char))
    (hv : ∀ l ∈ lines, validLine l = true)
    (hb : ∀ l ∈ lines, (l.length : Int) + 1 ≤ cs) :
    ∀ (N : Nat) (rest done : List (List Char)), rest.length ≤ N → lines = done ++ rest →
      ∃ (fuel : Nat) (rs : List (Int × Int)) (gs : List (List (List Char))),
        chunkRanges cs (fileOf lines) (sizeT lines) fuel (startOf done) = some rs ∧
        List.Chain' (fun p q => p.1 < q.1) rs ∧
        (∀ q ∈ rs, startOf done ≤ q.1) ∧
        gs.flatten = rest ∧
        (∀ acc, rs.foldlM (wkStep (fileOf lines)) acc = some (acc ++ gs.map chunkMapOf)) := by
  intro N
  induction N with
  | zero =>
      intro rest done hlen hlines
      have hnil : rest = [] := List.length_eq_zero.mp (Nat.le_zero.mp hlen)
      subst hnil
      exact orchestrate_base hcs lines hv done hlines
  | succ N ih =>
      intro rest done hlen hlines
      rcases rest with _ | ⟨r0, rest0⟩
      · exact orchestrate_base hcs lines hv done hlines
      have hvr : ∀ l ∈ (r0 :: rest0), validLine l = true := by
        intro l hl
        exact hv l (by rw [hlines]; exact List.mem_append_right _ hl)
      have hr0v : validLine r0 = true := hvr r0 (by simp)
      have hr0b : (r0.length : Int) + 1 ≤ cs := by
        refine hb r0 ?_
        rw [hlines]
        exact List.mem_append_right _ (by simp)
      have hr0len : 1 ≤ r0.length := validLine_length_pos hr0v
      have hszl : sizeT lines = sizeT done + sizeT (r0 :: rest0) := by
        rw [hlines, sizeT_append]
      have hszlI : (sizeT lines : Int) = (sizeT done : Int) + (sizeT (r0 :: rest0) : Int) := by
        exact_mod_cast hszl
      have hrpos : 1 ≤ sizeT (r0 :: rest0) := sizeT_pos (by simp)
      have hstart_le : startOf done ≤ (sizeT done : Int) := by
        by_cases hd : done = []
        · rw [startOf, if_pos hd]
          positivity
        · rw [startOf_cons hd]
          omega
      have hstart0 : 0 ≤ startOf done := by
        by_cases hd : done = []
        · rw [startOf, if_pos hd]
        · rw [startOf_cons hd]
          have := sizeT_pos hd
          omega
      have hslt : startOf done < (sizeT lines : Int) := by omega
      by_cases hA : (sizeT lines : Int) ≤ startOf done + cs
      · -- the chunk reaches the end of the file: one chunk takes all remaining lines
        have hmin : min (startOf done + cs) (sizeT lines : Int) = (sizeT lines : Int) := by
          omega
        have hfnl : findNextLineBoundary (fileOf lines)
            (min (startOf done + cs) (sizeT lines : Int)) = (sizeT lines : Int) := by
          rw [hmin]
          exact fnlb_eof (by rw [length_fileOf])
        have hproc2 : ∃ chunk, readChunk (fileOf lines) (startOf done) (sizeT lines : Int)
            = some chunk ∧ processChunk chunk = some (chunkMapOf (r0 :: rest0)) := by
          by_cases hd : done = []
          · have hleq : lines = r0 :: rest0 := by rw [hlines, hd]; rfl
            have hd0 : startOf done = 0 := by rw [startOf, if_pos hd]
            refine ⟨fileOf lines, ?_, ?_⟩
            · rw [hd0, slice_zero (by rw [length_fileOf])]
              congr 1
              rw [show ((sizeT lines : Int)).toNat = sizeT lines by omega, ← length_fileOf,
                List.take_length]
            · rw [hleq]
              exact processChunk_full hvr
          · have hsc : startOf done = (sizeT done : Int) - 1 := startOf_cons hd
            have hdpos := sizeT_pos hd
            refine ⟨'\n' :: fileOf (r0 :: rest0), ?_, processChunk_nl_full hvr⟩
            rw [hsc, slice_cons hlines hd (by omega) le_rfl]
            congr 2
            have hn2 : ((sizeT lines : Int) - ((sizeT done : Int) - 1)).toNat - 1
                = sizeT (r0 :: rest0) := by omega
            rw [hn2, ← length_fileOf, List.take_length]
        obtain ⟨chunk, hread, hproc⟩ := hproc2
        refine ⟨2, [(startOf done, (sizeT lines : Int))], [r0 :: rest0], ?_, ?_, ?_, by simp, ?_⟩
        · have hrec : chunkRanges cs (fileOf lines) (sizeT lines) 1
              (findNextLineBoundary (fileOf lines)
                (min (startOf done + cs) (sizeT lines : Int))) = some [] := by
            rw [hfnl]
            exact chunkRanges_stop 0 le_rfl
          have hbuild := chunkRanges_build hslt hrec
          rw [hmin] at hbuild
          exact hbuild
        · simp
        · intro q hq
          simp only [List.mem_singleton] at hq
          subst hq
          exact le_rfl
        · intro acc
          have hwk := wkStep_eval hread hproc acc
          rw [foldlM_wkStep_cons _ _ _ _ _ hwk]
          simp
      · -- the chunk ends strictly inside the file
        have hBlt : startOf done + cs < (sizeT lines : Int) := by omega
        have hmin : min (startOf done + cs) (sizeT lines : Int) = startOf done + cs := by
          omega
        by_cases hd : done = []
        · -- first chunk, no leading newline
          have hd0 : startOf done = 0 := by rw [startOf, if_pos hd]
          have hleq : lines = r0 :: rest0 := by rw [hlines, hd]; rfl
          have hr0n : r0.length ≤ cs.toNat := by omega
          have hk1 : 1 ≤ fitCount cs.toNat (r0 :: rest0) :=
            fitCount_pos rest0 hr0n
          have hkle : fitCount cs.toNat (r0 :: rest0) ≤ (r0 :: rest0).length :=
            fitCount_le _ _
          have hfit1 : sizeT ((r0 :: rest0).take (fitCount cs.toNat (r0 :: rest0)))
              ≤ cs.toNat + 1 := fitCount_size_le _ _
          have htne : (r0 :: rest0).take (fitCount cs.toNat (r0 :: rest0)) ≠ [] := by
            intro hcon
            have := congrArg List.length hcon
            simp [List.length_take] at this
            omega
          have htake_eq : (r0 :: rest0).take (fitCount cs.toNat (r0 :: rest0))
              = r0 :: rest0.take (fitCount cs.toNat (r0 :: rest0) - 1) := by
            conv_lhs => rw [show fitCount cs.toNat (r0 :: rest0)
              = (fitCount cs.toNat (r0 :: rest0) - 1) + 1 by omega]
            rw [List.take_succ_cons]
          have hsz2 : 2 ≤ sizeT ((r0 :: rest0).take (fitCount cs.toNat (r0 :: rest0))) := by
            rw [htake_eq, sizeT_cons]
            omega
          have hlines2 : lines = (r0 :: rest0).take (fitCount cs.toNat (r0 :: rest0))
              ++ (r0 :: rest0).drop (fitCount cs.toNat (r0 :: rest0)) := by
            rw [hleq, List.take_append_drop]
          have hszd2 : sizeT lines
              = sizeT ((r0 :: rest0).take (fitCount cs.toNat (r0 :: rest0)))
                + sizeT ((r0 :: rest0).drop (fitCount cs.toNat (r0 :: rest0))) := by
            rw [hlines2, sizeT_append]
          have hfnl : findNextLineBoundary (fileOf lines) (startOf done + cs)
              = (sizeT ((r0 :: rest0).take (fitCount cs.toNat (r0 :: rest0))) : Int) - 1 := by
            apply boundary_found hlines2 htne
              (fun l hl => hvr l (List.drop_subset _ _ hl))
            · omega
            · omega
            · intro l2 rest3 hdropeq
              have hklt : fitCount cs.toNat (r0 :: rest0) < (r0 :: rest0).length := by
                by_contra hge
                rw [List.drop_eq_nil_of_le (by omega)] at hdropeq
                cases hdropeq
              have hfit2 := fitCount_next hklt
              have htake1 : (r0 :: rest0).take (fitCount cs.toNat (r0 :: rest0) + 1)
                  = (r0 :: rest0).take (fitCount cs.toNat (r0 :: rest0)) ++ [l2] := by
                rw [List.take_succ]
                have hh := List.head?_drop (r0 :: rest0) (fitCount cs.toNat (r0 :: rest0))
                rw [hdropeq] at hh
                simp only [List.head?_cons] at hh
                rw [← hh]
                rfl
              rw [htake1, sizeT_append] at hfit2
              have hl2 : sizeT [l2] = l2.length + 1 := by simp [sizeT]
              rw [hl2] at hfit2
              omega
          have hbstart : startOf ((r0 :: rest0).take (fitCount cs.toNat (r0 :: rest0)))
              = (sizeT ((r0 :: rest0).take (fitCount cs.toNat (r0 :: rest0))) : Int) - 1 :=
            startOf_cons htne
          obtain ⟨fuel', rs', gs', hcr', hch', hge', hfl', hfold'⟩ :=
            ih ((r0 :: rest0).drop (fitCount cs.toNat (r0 :: rest0)))
              ((r0 :: rest0).take (fitCount cs.toNat (r0 :: rest0)))
              (by simp only [List.length_drop, List.length_cons] at hlen ⊢; omega) hlines2
          refine ⟨fuel' + 1, (startOf done, startOf done + cs) :: rs',
            (r0 :: rest0).take (fitCount cs.toNat (r0 :: rest0)) :: gs', ?_, ?_, ?_, ?_, ?_⟩
          · have hrec : chunkRanges cs (fileOf lines) (sizeT lines) fuel'
                (findNextLineBoundary (fileOf lines)
                  (min (startOf done + cs) (sizeT lines : Int))) = some rs' := by
              rw [hmin, hfnl, ← hbstart]
              exact hcr'
            have hbuild := chunkRanges_build hslt hrec
            rw [hmin] at hbuild
            exact hbuild
          · rw [List.chain'_cons']
            refine ⟨?_, hch'⟩
            intro q hq
            have hqm := hge' q (List.mem_of_mem_head? hq)
            rw [hbstart] at hqm
            simp only
            omega
          · intro q hq
            rcases List.mem_cons.mp hq with hq | hq
            · subst hq; exact le_rfl
            · have hqm := hge' q hq
              rw [hbstart] at hqm
              omega
          · simp only [List.flatten_cons, hfl']
            rw [List.take_append_drop]
          · intro acc
            have hread : readChunk (fileOf lines) (startOf done) (startOf done + cs)
                = some ((fileOf lines).take cs.toNat) := by
              rw [hd0, zero_add]
              rw [slice_zero (by rw [length_fileOf]; omega)]
            have hproc : processChunk ((fileOf lines).take cs.toNat)
                = some (chunkMapOf ((r0 :: rest0).take (fitCount cs.toNat (r0 :: rest0)))) := by
              rw [hleq]
              exact processChunk_take hvr cs.toNat
            have hwk := wkStep_eval hread hproc acc
            rw [foldlM_wkStep_cons _ _ _ _ _ hwk, hfold']
            simp
        · -- a later chunk, led by the boundary newline
          have hsc : startOf done = (sizeT done : Int) - 1 := startOf_cons hd
          have hdpos := sizeT_pos hd
          have hr0n : r0.length ≤ cs.toNat - 1 := by omega
          have hk1 : 1 ≤ fitCount (cs.toNat - 1) (r0 :: rest0) :=
            fitCount_pos rest0 hr0n
          have hkle : fitCount (cs.toNat - 1) (r0 :: rest0) ≤ (r0 :: rest0).length :=
            fitCount_le _ _
          have hfit1 : sizeT ((r0 :: rest0).take (fitCount (cs.toNat - 1) (r0 :: rest0)))
              ≤ (cs.toNat - 1) + 1 := fitCount_size_le _ _
          have htne : (r0 :: rest0).take (fitCount (cs.toNat - 1) (r0 :: rest0)) ≠ [] := by
            intro hcon
            have := congrArg List.length hcon
            simp [List.length_take] at this
            omega
          have htake_eq : (r0 :: rest0).take (fitCount (cs.toNat - 1) (r0 :: rest0))
              = r0 :: rest0.take (fitCount (cs.toNat - 1) (r0 :: rest0) - 1) := by
            conv_lhs => rw [show fitCount (cs.toNat - 1) (r0 :: rest0)
              = (fitCount (cs.toNat - 1) (r0 :: rest0) - 1) + 1 by omega]
            rw [List.take_succ_cons]
          have hsz2 : 2 ≤ sizeT ((r0 :: rest0).take (fitCount (cs.toNat - 1) (r0 :: rest0))) := by
            rw [htake_eq, sizeT_cons]
            omega
          have hlines2 : lines = (done ++ (r0 :: rest0).take (fitCount (cs.toNat - 1) (r0 :: rest0)))
              ++ (r0 :: rest0).drop (fitCount (cs.toNat - 1) (r0 :: rest0)) := by
            rw [hlines, List.append_assoc, List.take_append_drop]
          have hne2 : done ++ (r0 :: rest0).take (fitCount (cs.toNat - 1) (r0 :: rest0)) ≠ [] := by
            simp [List.append_eq_nil, hd]
          have hszd2 : sizeT (done ++ (r0 :: rest0).take (fitCount (cs.toNat - 1) (r0 :: rest0)))
              = sizeT done + sizeT ((r0 :: rest0).take (fitCount (cs.toNat - 1) (r0 :: rest0))) := by
            rw [sizeT_append]
          have hfnl : findNextLineBoundary (fileOf lines) (startOf done + cs)
              = (sizeT (done ++ (r0 :: rest0).take (fitCount (cs.toNat - 1) (r0 :: rest0))) : Int)
                - 1 := by
            apply boundary_found hlines2 hne2
              (fun l hl => hvr l (List.drop_subset _ _ hl))
            · rw [hszd2]
              push_cast
              omega
            · omega
            · intro l2 rest3 hdropeq
              have hklt : fitCount (cs.toNat - 1) (r0 :: rest0) < (r0 :: rest0).length := by
                by_contra hge
                rw [List.drop_eq_nil_of_le (by omega)] at hdropeq
                cases hdropeq
              have hfit2 := fitCount_next hklt
              have htake1 : (r0 :: rest0).take (fitCount (cs.toNat - 1) (r0 :: rest0) + 1)
                  = (r0 :: rest0).take (fitCount (cs.toNat - 1) (r0 :: rest0)) ++ [l2] := by
                rw [List.take_succ]
                have hh := List.head?_drop (r0 :: rest0) (fitCount (cs.toNat - 1) (r0 :: rest0))
                rw [hdropeq] at hh
                simp only [List.head?_cons] at hh
                rw [← hh]
                rfl
              rw [htake1, sizeT_append] at hfit2
              have hl2 : sizeT [l2] = l2.length + 1 := by simp [sizeT]
              rw [hl2] at hfit2
              rw [hszd2]
              push_cast
              omega
          have hbstart : startOf (done ++ (r0 :: rest0).take (fitCount (cs.toNat - 1) (r0 :: rest0)))
              = (sizeT (done ++ (r0 :: rest0).take (fitCount (cs.toNat - 1) (r0 :: rest0))) : Int)
                - 1 := startOf_cons hne2
          obtain ⟨fuel', rs', gs', hcr', hch', hge', hfl', hfold'⟩ :=
            ih ((r0 :: rest0).drop (fitCount (cs.toNat - 1) (r0 :: rest0)))
              (done ++ (r0 :: rest0).take (fitCount (cs.toNat - 1) (r0 :: rest0)))
              (by simp only [List.length_drop, List.length_cons] at hlen ⊢; omega) hlines2
          refine ⟨fuel' + 1, (startOf done, startOf done + cs) :: rs',
            (r0 :: rest0).take (fitCount (cs.toNat - 1) (r0 :: rest0)) :: gs', ?_, ?_, ?_, ?_, ?_⟩
          · have hrec : chunkRanges cs (fileOf lines) (sizeT lines) fuel'
                (findNextLineBoundary (fileOf lines)
                  (min (startOf done + cs) (sizeT lines : Int))) = some rs' := by
              rw [hmin, hfnl, ← hbstart]
              exact hcr'
            have hbuild := chunkRanges_build hslt hrec
            rw [hmin] at hbuild
            exact hbuild
          · rw [List.chain'_cons']
            refine ⟨?_, hch'⟩
            intro q hq
            have hqm := hge' q (List.mem_of_mem_head? hq)
            rw [hbstart, hszd2] at hqm
            simp only
            push_cast at hqm
            omega
          · intro q hq
            rcases List.mem_cons.mp hq with hq | hq
            · subst hq; exact le_rfl
            · have hqm := hge' q hq
              rw [hbstart, hszd2] at hqm
              push_cast at hqm
              omega
          · simp only [List.flatten_cons, hfl']
            rw [List.take_append_drop]
          · intro acc
            have hread : readChunk (fileOf lines) (startOf done) (startOf done + cs)
                = some ('\n' :: (fileOf (r0 :: rest0)).take
                    ((startOf done + cs - ((sizeT done : Int) - 1)).toNat - 1)) := by
              rw [hsc]
              exact slice_cons hlines hd (by omega) (by omega)
            have hn1 : (startOf done + cs - ((sizeT done : Int) - 1)).toNat - 1
                = cs.toNat - 1 := by omega
            rw [hn1] at hread
            have hproc : processChunk ('\n' :: (fileOf (r0 :: rest0)).take (cs.toNat - 1))
                = some (chunkMapOf ((r0 :: rest0).take (fitCount (cs.toNat - 1) (r0 :: rest0)))) :=
              processChunk_nl_take hvr (cs.toNat - 1)
            have hwk := wkStep_eval hread hproc acc
            rw [foldlM_wkStep_cons _ _ _ _ _ hwk, hfold']
            simp

/-! ### Top-level consequences of the orchestrator analysis -/

theorem startOf_nil : startOf [] = 0 := rfl

theorem orchestrate {cs : Int} (hcs : 1 ≤ cs) (lines : List (List Char))
    (hv : ∀ l ∈ lines, validLine l = true)
    (hb : ∀ l ∈ lines, (l.length : Int) + 1 ≤ cs) :
    ∃ (fuel : Nat) (rs : List (Int × Int)) (gs : List (List (List Char))),
      chunkRanges cs (fileOf lines) (sizeT lines) fuel 0 = some rs ∧
      List.Chain' (fun p q => p.1 < q.1) rs ∧
      gs.flatten = lines ∧
      (∀ acc, rs.foldlM (wkStep (fileOf lines)) acc = some (acc ++ gs.map chunkMapOf)) := by
  obtain ⟨fuel, rs, gs, hcr, hch, _, hfl, hfold⟩ :=
    orchestrate_aux hcs lines hv hb lines.length lines [] le_rfl (by simp)
  rw [startOf_nil] at hcr
  exact ⟨fuel, rs, gs, hcr, hch, hfl, hfold⟩

theorem dispatchedMaps_groups {cs : Int} (hcs : 1 ≤ cs) {lines : List (List Char)}
    (hv : ∀ l ∈ lines, validLine l = true)
    (hb : ∀ l ∈ lines, (l.length : Int) + 1 ≤ cs) {fuel : Nat} {maps : List LocationMap}
    (h : dispatchedMaps cs (fileOf lines) (sizeT lines) fuel = some maps) :
    ∃ gs : List (List (List Char)), gs.flatten = lines ∧ maps = gs.map chunkMapOf := by
  obtain ⟨fuel0, rs0, gs, hcr0, _, hfl, hfold⟩ := orchestrate hcs lines hv hb
  refine ⟨gs, hfl, ?_⟩
  unfold dispatchedMaps at h
  rcases hcr : chunkRanges cs (fileOf lines) (sizeT lines) fuel 0 with _ | rs
  · rw [hcr] at h
    exact Option.noConfusion h
  · rw [hcr] at h
    have h2 : List.foldlM (wkStep (fileOf lines)) [] rs = some maps := h
    have hrr : rs = rs0 := chunkRanges_det fuel fuel0 0 rs rs0 hcr hcr0
    subst hrr
    have hfold2 := hfold []
    rw [h2] at hfold2
    simpa using hfold2

theorem run_equiv_core {cs : Int} (hcs : 1 ≤ cs) {lines : List (List Char)}
    (hv : ∀ l ∈ lines, validLine l = true)
    (hcap : ∀ l ∈ lines, l.length < maxScanTokenSize)
    (hb : ∀ l ∈ lines, (l.length : Int) + 1 ≤ cs) {fuel : Nat}
    {maps arrived : List LocationMap}
    (hm : sentMaps (fileOf lines) (some (sizeT lines)) cs fuel = some maps)
    (ha : arrived.Perm maps) :
    concResult arrived = runSeq (fileOf lines) := by
  have hm2 : dispatchedMaps cs (fileOf lines) (sizeT lines) fuel = some maps := hm
  obtain ⟨gs, hfl, hmaps⟩ := dispatchedMaps_groups hcs hv hb hm2
  subst hmaps
  unfold runSeq
  rw [parseFile_fileOf hv hcap]
  exact mergeAll_eq_seqFold hfl ha

theorem orchestrator_terminates {cs : Int} (hcs : 1 ≤ cs) {lines : List (List Char)}
    (hv : ∀ l ∈ lines, validLine l = true)
    (hb : ∀ l ∈ lines, (l.length : Int) + 1 ≤ cs) :
    ∃ (fuel : Nat) (rs : List (Int × Int)),
      chunkRanges cs (fileOf lines) (sizeT lines) fuel 0 = some rs ∧
      List.Chain' (fun p q => p.1 < q.1) rs ∧
      (∀ hne : rs ≠ [], (rs.getLast hne).2 = (sizeT lines : Int)) := by
  obtain ⟨fuel, rs, gs, hcr, hch, _, _⟩ := orchestrate hcs lines hv hb
  exact ⟨fuel, rs, hcr, hch, chunkRanges_last hcr⟩

/-! ### The formatter succeeds on well-formed states -/

theorem buildResult_isSome {sorted : List (List Char)} {m : LocationMap}
    (h : ∀ k ∈ sorted, m.lookup k ≠ none) : (buildResult sorted m).isSome = true := by
  unfold buildResult
  suffices hs : ∀ acc, (sorted.foldlM (brStep m) acc).isSome = true by
    cases hh : sorted.foldlM (brStep m) (0, "\x7b") with
    | none =>
        have hcon := hs (0, "\x7b")
        rw [hh] at hcon
        simp at hcon
    | some acc => simp [hh]
  induction sorted with
  | nil => intro acc; rfl
  | cons k rest ih =>
      intro acc
      rw [List.foldlM_cons]
      rcases hl : m.lookup k with _ | d
      · exact absurd hl (h k (by simp))
      · rw [show brStep m acc k = some (acc.1 + 1, acc.2 ++ (if 0 < acc.1 then ", " else "")
            ++ renderEntry k d) by rw [brStep, hl]]
        exact ih (fun x hx => h x (by simp [hx])) _

theorem createResult_isSome {locations : List (List Char)} {m : LocationMap}
    (h : ∀ k ∈ locations, m.lookup k ≠ none) :
    (createResult locations m).isSome = true := by
  unfold createResult
  apply buildResult_isSome
  intro k hk
  exact h k ((sortKeys_perm locations).mem_iff.mp hk)

theorem runSeq_isSome {lines : List (List Char)} (hv : ∀ l ∈ lines, validLine l = true)
    (hcap : ∀ l ∈ lines, l.length < maxScanTokenSize) :
    (runSeq (fileOf lines)).isSome = true := by
  unfold runSeq
  rw [parseFile_fileOf hv hcap]
  obtain ⟨hn, hmem, _⟩ := StateWF_seqFold (obsOf lines)
  exact createResult_isSome (fun k hk => (hmem k).mp hk)

theorem concResult_isSome (arrived : List LocationMap) :
    (concResult arrived).isSome = true := by
  unfold concResult
  obtain ⟨hn, hmem, _⟩ := StateWF_mergeAll arrived
  exact createResult_isSome (fun k hk => (hmem k).mp hk)

/-! ### Concrete evaluations: a small file, the long-line file, the
boundary-overlap file -/

theorem validLine_repl (n : Nat) :
    validLine (List.replicate n 'a' ++ [';', '1', '.', '2']) = true := by
  have hidx : (List.replicate n 'a' ++ [';', '1', '.', '2']).findIdx? (· = ';') = some n := by
    have h := findIdx_append_cons (· = ';') (List.replicate n 'a') ';' ['1', '.', '2']
      (fun x hx => by rw [List.eq_of_mem_replicate hx]; decide) (by decide)
    simpa using h
  have hc : (List.replicate n 'a' ++ [';', '1', '.', '2']).contains '\n' = false := by
    by_contra hcc
    simp only [Bool.not_eq_false] at hcc
    have hm := List.mem_of_elem_eq_true hcc
    rcases List.mem_append.mp hm with h1 | h1
    · exact absurd (List.eq_of_mem_replicate h1) (by decide)
    · exact absurd h1 (by decide)
  have hdrop : (List.replicate n 'a' ++ [';', '1', '.', '2']).drop (n + 1) = ['1', '.', '2'] := by
    rw [List.drop_append_eq_append_drop]
    simp
  unfold validLine
  rw [hidx]
  show (!(List.replicate n 'a' ++ [';', '1', '.', '2']).contains '\n' &&
    validVal ((List.replicate n 'a' ++ [';', '1', '.', '2']).drop (n + 1))) = true
  rw [hc, hdrop]
  decide

theorem longLine_valid : validLine longLine = true := validLine_repl 90000

theorem wideLine_valid : validLine wideLine = true := validLine_repl 81914

theorem longLine_length : longLine.length = 90004 := by
  rw [longLine, List.length_append, List.length_replicate]
  rfl

theorem sizeT_longLine : sizeT [longLine] = 90005 := by
  simp only [sizeT, List.map_cons, List.map_nil, List.sum_cons, List.sum_nil, longLine_length]
  rfl

theorem longFile_eq : longFile = List.replicate 90000 'a' ++ [';', '1', '.', '2', '\n'] := by
  rw [show longFile = fileOf [longLine] from rfl]
  simp only [fileOf, List.map_cons, List.map_nil, List.flatten_cons, List.flatten_nil,
    List.append_nil, longLine, List.append_assoc]
  rfl

theorem longFile_length : longFile.length = 90005 := by
  rw [show longFile = fileOf [longLine] from rfl, length_fileOf, sizeT_longLine]

theorem readAt_longFile {j : Int} (h0 : 0 ≤ j) (hj : j < 90000) :
    readAt longFile j = some 'a' := by
  rw [longFile_eq, readAt, if_neg (by omega), List.get?_eq_getElem?]
  rw [List.getElem?_append_left (by rw [List.length_replicate]; omega)]
  rw [List.getElem?_replicate, if_pos (by omega)]

theorem longFile_no_nl {j : Int} (h0 : 0 ≤ j) (hj : j ≤ 81920) :
    readAt longFile j ≠ some '\n' := by
  rw [readAt_longFile h0 (by omega)]
  decide

theorem fnlb_longFile_81919 : findNextLineBoundary longFile 81919 = -1 :=
  fnlb_neg 81919 (by norm_num) (by rw [longFile_length]; norm_num)
    (fun j h1 h2 => longFile_no_nl h1 (by omega))

theorem fnlb_longFile_81920 : findNextLineBoundary longFile 81920 = -1 :=
  fnlb_neg 81920 (by norm_num) (by rw [longFile_length]; norm_num)
    (fun j h1 h2 => longFile_no_nl h1 (by omega))

theorem chunkRanges_longFile_neg :
    ∀ fuel, chunkRanges chunkSizeGo longFile 90005 fuel (-1) = none := by
  intro fuel
  induction fuel with
  | zero => rfl
  | succ fuel ih =>
      cases h : chunkRanges chunkSizeGo longFile 90005 (fuel + 1) (-1) with
      | none => rfl
      | some rs =>
          exfalso
          obtain ⟨rest, _, hrec⟩ := chunkRanges_succ_pos (by norm_num) h
          rw [show min ((-1 : Int) + chunkSizeGo) 90005 = 81919 by
            simp [chunkSizeGo]] at hrec
          rw [fnlb_longFile_81919, ih] at hrec
          exact Option.noConfusion hrec

theorem chunkRanges_longFile_zero :
    ∀ fuel, chunkRanges chunkSizeGo longFile 90005 fuel 0 = none := by
  intro fuel
  cases fuel with
  | zero => rfl
  | succ fuel =>
      cases h : chunkRanges chunkSizeGo longFile 90005 (fuel + 1) 0 with
      | none => rfl
      | some rs =>
          exfalso
          obtain ⟨rest, _, hrec⟩ := chunkRanges_succ_pos (by norm_num) h
          rw [show min ((0 : Int) + chunkSizeGo) 90005 = 81920 by
            simp [chunkSizeGo]] at hrec
          rw [fnlb_longFile_81920, chunkRanges_longFile_neg fuel] at hrec
          exact Option.noConfusion hrec

theorem longFile_no_halt : ¬ orchestratorHalts chunkSizeGo longFile 90005 := by
  rintro ⟨fuel, rs, h⟩
  rw [chunkRanges_longFile_zero fuel] at h
  exact Option.noConfusion h

theorem longFile_no_term : ¬ concTerminates longFile (some 90005) chunkSizeGo := by
  rintro ⟨fuel, maps, h⟩
  have h2 : dispatchedMaps chunkSizeGo longFile 90005 fuel = some maps := h
  unfold dispatchedMaps at h2
  rw [chunkRanges_longFile_zero fuel] at h2
  exact Option.noConfusion h2

theorem wideLine_length : wideLine.length = 81918 := by
  rw [wideLine, List.length_append, List.length_replicate]
  rfl

theorem wideFile_eq :
    wideFile = List.replicate 81914 'a' ++
      [';', '1', '.', '2', '\n', 'b', ';', '1', '.', '2', '\n'] := by
  rw [show wideFile = fileOf [wideLine, ['b', ';', '1', '.', '2']] from rfl]
  simp only [fileOf, List.map_cons, List.map_nil, List.flatten_cons, List.flatten_nil,
    List.append_nil, wideLine, List.append_assoc]
  rfl

theorem wideFile_length : wideFile.length = 81925 := by
  rw [show wideFile = fileOf [wideLine, ['b', ';', '1', '.', '2']] from rfl, length_fileOf]
  simp only [sizeT, List.map_cons, List.map_nil, List.sum_cons, List.sum_nil, wideLine_length]
  rfl

theorem readAt_wideFile_81918 : readAt wideFile 81918 = some '\n' := by
  rw [wideFile_eq, readAt_append_right (by rw [List.length_replicate]; norm_num)]
  rw [List.length_replicate]
  norm_num
  decide

theorem readAt_wideFile_81919 : readAt wideFile 81919 = some 'b' := by
  rw [wideFile_eq, readAt_append_right (by rw [List.length_replicate]; norm_num)]
  rw [List.length_replicate]
  norm_num
  decide

theorem readAt_wideFile_81920 : readAt wideFile 81920 = some ';' := by
  rw [wideFile_eq, readAt_append_right (by rw [List.length_replicate]; norm_num)]
  rw [List.length_replicate]
  norm_num
  decide

theorem fnlb_wideFile_81920 : findNextLineBoundary wideFile 81920 = 81918 :=
  fnlb_find readAt_wideFile_81918 81920 (by norm_num)
    (by rw [wideFile_length]; norm_num)
    (fun j h1 h2 => by
      have hj : j = 81919 ∨ j = 81920 := by omega
      rcases hj with hj | hj <;> subst hj
      · rw [readAt_wideFile_81919]; decide
      · rw [readAt_wideFile_81920]; decide)

theorem fnlb_wideFile_81925 : findNextLineBoundary wideFile 81925 = 81925 :=
  fnlb_eof (by rw [wideFile_length]; norm_num)

theorem chunkRanges_wideFile :
    chunkRanges chunkSizeGo wideFile 81925 3 0 = some [(0, 81920), (81918, 81925)] := by
  have hstop : chunkRanges chunkSizeGo wideFile 81925 1 81925 = some [] :=
    chunkRanges_stop 0 le_rfl
  have h2 : chunkRanges chunkSizeGo wideFile 81925 2 81918 = some [(81918, 81925)] := by
    have hb := chunkRanges_build (show (81918 : Int) < 81925 by norm_num) (by
      rw [show min ((81918 : Int) + chunkSizeGo) 81925 = 81925 by simp [chunkSizeGo],
        fnlb_wideFile_81925]
      exact hstop)
    rw [show min ((81918 : Int) + chunkSizeGo) 81925 = 81925 by simp [chunkSizeGo]] at hb
    exact hb
  have hb := chunkRanges_build (show (0 : Int) < 81925 by norm_num) (by
    rw [show min ((0 : Int) + chunkSizeGo) 81925 = 81920 by simp [chunkSizeGo],
      fnlb_wideFile_81920]
    exact h2)
  rw [show min ((0 : Int) + chunkSizeGo) 81925 = 81920 by simp [chunkSizeGo]] at hb
  exact hb

theorem fnlb_tiny_6 : findNextLineBoundary (fileOf [['a', ';', '1', '.', '2']]) 6 = 6 :=
  fnlb_eof (by decide)

theorem chunkRanges_tiny :
    chunkRanges 6 (fileOf [['a', ';', '1', '.', '2']]) (sizeT [['a', ';', '1', '.', '2']]) 2 0
      = some [(0, 6)] := by
  have hstop : chunkRanges 6 (fileOf [['a', ';', '1', '.', '2']])
      (sizeT [['a', ';', '1', '.', '2']]) 1 6 = some [] :=
    chunkRanges_stop 0 (by decide)
  have hb := chunkRanges_build
    (show (0 : Int) < (sizeT [['a', ';', '1', '.', '2']] : Int) by decide) (by
      rw [show min ((0 : Int) + 6) ((sizeT [['a', ';', '1', '.', '2']] : Int)) = 6 by decide,
        fnlb_tiny_6]
      exact hstop)
  rw [show min ((0 : Int) + 6) ((sizeT [['a', ';', '1', '.', '2']] : Int)) = 6 by decide] at hb
  exact hb

theorem sent_tiny :
    sentMaps (fileOf [['a', ';', '1', '.', '2']]) (some (sizeT [['a', ';', '1', '.', '2']])) 6 2
      = some [chunkMapOf [['a', ';', '1', '.', '2']]] := by
  show dispatchedMaps 6 (fileOf [['a', ';', '1', '.', '2']])
    (sizeT [['a', ';', '1', '.', '2']]) 2 = _
  unfold dispatchedMaps
  rw [chunkRanges_tiny]
  decide

theorem midLine_valid : validLine midLine = true := validLine_repl 69996

theorem midLine_length : midLine.length = 70000 := by
  rw [midLine, List.length_append, List.length_replicate]
  rfl

theorem sizeT_midLine : sizeT [midLine] = 70001 := by
  simp only [sizeT, List.map_cons, List.map_nil, List.sum_cons, List.sum_nil, midLine_length]
  rfl

theorem midFile_length : midFile.length = 70001 := by
  rw [show midFile = fileOf [midLine] from rfl, length_fileOf, sizeT_midLine]

theorem fnlb_midFile_70001 : findNextLineBoundary midFile 70001 = 70001 :=
  fnlb_eof (by rw [midFile_length]; norm_num)

theorem chunkRanges_midFile :
    chunkRanges chunkSizeGo midFile 70001 2 0 = some [(0, 70001)] := by
  have hstop : chunkRanges chunkSizeGo midFile 70001 1 70001 = some [] :=
    chunkRanges_stop 0 le_rfl
  have hb := chunkRanges_build (show (0 : Int) < 70001 by norm_num) (by
    rw [show min ((0 : Int) + chunkSizeGo) 70001 = 70001 by simp [chunkSizeGo],
      fnlb_midFile_70001]
    exact hstop)
  rw [show min ((0 : Int) + chunkSizeGo) 70001 = 70001 by simp [chunkSizeGo]] at hb
  exact hb

theorem sent_midFile :
    sentMaps midFile (some 70001) chunkSizeGo 2 = some [chunkMapOf [midLine]] := by
  show dispatchedMaps chunkSizeGo midFile 70001 2 = _
  unfold dispatchedMaps
  rw [chunkRanges_midFile]
  have hread : readChunk midFile 0 70001 = some midFile := by
    rw [slice_zero (by rw [midFile_length]; norm_num)]
    rw [show ((70001 : Int)).toNat = 70001 from rfl, ← midFile_length, List.take_length]
  have hproc : processChunk midFile = some (chunkMapOf [midLine]) := by
    show processChunk (fileOf [midLine]) = _
    exact processChunk_full (fun l hl => by
      rw [List.mem_singleton.mp hl]
      exact midLine_valid)
  have hwk := wkStep_eval hread hproc []
  show List.foldlM (wkStep midFile) [] [(0, 70001)] = some [chunkMapOf [midLine]]
  rw [foldlM_wkStep_cons _ _ _ _ _ hwk]
  rfl

theorem scanTokens_err {file : List Char}
    (h : (splitOnNl file).all (fun p => decide (p.length < maxScanTokenSize)) = false) :
    scanTokens file = none := by
  unfold scanTokens
  rw [h]
  rfl

theorem runSeq_scan_err {file : List Char} (h : scanTokens file = none) :
    runSeq file = none := by
  unfold runSeq parseFile
  rw [h]

theorem midLine_no_nl : ∀ c ∈ midLine, c ≠ '\n' := by
  intro c hc hn
  subst hn
  rcases List.mem_append.mp hc with h | h
  · exact absurd (List.eq_of_mem_replicate h) (by decide)
  · exact absurd h (by decide)

theorem runSeq_midFile : runSeq midFile = none := by
  have hsplit : splitOnNl midFile = [midLine] ++ [[]] :=
    splitOnNl_fileOf (fun l hl => by
      rw [List.mem_singleton.mp hl]
      exact midLine_no_nl)
  apply runSeq_scan_err
  apply scanTokens_err
  rw [hsplit]
  show (decide (midLine.length < maxScanTokenSize) &&
    (([[]] : List (List Char)).all (fun p => decide (p.length < maxScanTokenSize)))) = false
  rw [midLine_length]
  decide

/-! ### The chunk worker skip path on malformed lines -/

theorem processLine_skips {l : List Char} (i : Nat)
    (h : l = [] ∨ l.findIdx? (· = ';') = none ∨
      (l.findIdx? (· = ';') = some i ∧
        ((l.drop (i + 1)).length < 3 ∨
          ¬ (l.drop (i + 1)).get? ((l.drop (i + 1)).length - 2) = some '.'))) :
    processLine l = some none := by
  rcases h with h | h | ⟨hidx, hbad⟩
  · subst h
    exact processLine_nil
  · by_cases hnil : l = []
    · subst hnil
      exact processLine_nil
    · unfold processLine
      rw [if_neg hnil, h]
  · by_cases hnil : l = []
    · subst hnil
      exact processLine_nil
    · unfold processLine
      rw [if_neg hnil, hidx]
      show (if (l.drop (i + 1)).length < 3 ∨
          ¬ (l.drop (i + 1)).get? ((l.drop (i + 1)).length - 2) = some '.' then some none
        else _) = some none
      rw [if_pos hbad]

/-! ### Termination of the dispatch loop on arbitrary byte files -/

theorem readAt_mem {l : List Char} {i : Int} {c : Char} (h : readAt l i = some c) : c ∈ l := by
  rw [readAt] at h
  split at h
  · exact absurd h (by simp)
  · exact List.get?_mem h

theorem splitOnNl_no_newline : ∀ (file : List Char), ∀ p ∈ splitOnNl file, ∀ c ∈ p, c ≠ '\n' := by
  intro file
  induction file with
  | nil =>
      intro p hp
      simp only [splitOnNl, List.mem_singleton] at hp
      subst hp
      intro c hc
      simp at hc
  | cons a rest ih =>
      intro p hp
      by_cases ha : a = '\n'
      · subst ha
        rw [splitOnNl_cons_nl] at hp
        rcases List.mem_cons.mp hp with hp | hp
        · subst hp
          intro c hc
          simp at hc
        · exact ih p hp
      · rcases hrest : splitOnNl rest with _ | ⟨q, ps⟩
        · exact absurd hrest (splitOnNl_ne_nil rest)
        · rw [show splitOnNl (a :: rest) = (a :: q) :: ps by
            simp only [splitOnNl, if_neg ha, hrest]] at hp
          rcases List.mem_cons.mp hp with hp | hp
          · subst hp
            intro c hc
            rcases List.mem_cons.mp hc with hc | hc
            · subst hc
              exact ha
            · exact ih q (by rw [hrest]; simp) c hc
          · exact ih p (by rw [hrest]; simp [hp])

theorem splitOnNl_concat : ∀ (file : List Char) {qs : List (List Char)} {t : List Char},
    splitOnNl file = qs ++ [t] → file = fileOf qs ++ t := by
  intro file
  induction file with
  | nil =>
      intro qs t h
      have h2 : qs ++ [t] = [[]] := by rw [← h]; rfl
      rcases qs with _ | ⟨q, qs2⟩
      · simp only [List.nil_append, List.cons.injEq] at h2
        rw [h2.1]
        rfl
      · have hlen := congrArg List.length h2
        simp at hlen
  | cons c rest ih =>
      intro qs t h
      by_cases hc : c = '\n'
      · subst hc
        rw [splitOnNl_cons_nl] at h
        rcases qs with _ | ⟨q, qs2⟩
        · simp only [List.nil_append] at h
          injection h with h1 h2
          exact absurd h2 (splitOnNl_ne_nil rest)
        · simp only [List.cons_append] at h
          injection h with h1 h2
          have hr := ih h2
          rw [← h1, fileOf_cons, hr]
          rfl
      · rcases hrest : splitOnNl rest with _ | ⟨p, ps⟩
        · exact absurd hrest (splitOnNl_ne_nil rest)
        · rw [show splitOnNl (c :: rest) = (c :: p) :: ps by
            simp only [splitOnNl, if_neg hc, hrest]] at h
          rcases qs with _ | ⟨q, qs2⟩
          · simp only [List.nil_append] at h
            injection h with h1 h2
            subst h2
            have hr := ih (show splitOnNl rest = [] ++ [p] by rw [hrest]; rfl)
            rw [fileOf_nil] at hr
            simp only [List.nil_append] at hr
            rw [← h1, fileOf_nil]
            simp [hr]
          · simp only [List.cons_append] at h
            injection h with h1 h2
            have hr := ih (show splitOnNl rest = (p :: qs2) ++ [t] by
              rw [hrest, h2]
              rfl)
            rw [fileOf_cons] at hr
            rw [← h1, fileOf_cons]
            simp [hr]

theorem length_fileOf_append (lines : List (List Char)) (t : List Char) :
    ((fileOf lines ++ t).length : Int) = (sizeT lines : Int) + (t.length : Int) := by
  rw [List.length_append, length_fileOf]
  push_cast
  ring

theorem boundary_found_t {lines done2 rest2 : List (List Char)} {t : List Char}
    (hlines : lines = done2 ++ rest2) (hne : done2 ≠ [])
    (hvr : ∀ l ∈ rest2, ∀ c ∈ l, c ≠ '\n') (htnl : ∀ c ∈ t, c ≠ '\n')
    {e : Int} (hbe : (sizeT done2 : Int) - 1 ≤ e)
    (hesize : e < (sizeT lines : Int) + (t.length : Int))
    (hnext : ∀ l' rest'', rest2 = l' :: rest'' → e < (sizeT done2 : Int) + l'.length) :
    findNextLineBoundary (fileOf lines ++ t) e = (sizeT done2 : Int) - 1 := by
  have hb_nl : readAt (fileOf lines ++ t) ((sizeT done2 : Int) - 1) = some '\n' := by
    rw [hlines, fileOf_append, List.append_assoc]
    exact readAt_fileOf_end hne (fileOf rest2 ++ t)
  have hlen := length_fileOf_append lines t
  rcases rest2 with _ | ⟨l2, rest3⟩
  · have hsz : sizeT lines = sizeT done2 := by
      rw [hlines, sizeT_append, sizeT_nil]
      omega
    apply fnlb_find hb_nl e hbe (by omega)
    intro j h1 h2 hcon
    have hflen : ((fileOf lines).length : Int) = (sizeT lines : Int) := by
      rw [length_fileOf]
    rw [readAt_append_right (by omega)] at hcon
    exact htnl '\n' (readAt_mem hcon) rfl
  · have hl2 := hnext l2 rest3 rfl
    have hfile : fileOf lines ++ t = fileOf done2 ++ (l2 ++ ('\n' :: (fileOf rest3 ++ t))) := by
      rw [hlines, fileOf_append, fileOf_cons]
      simp [List.append_assoc]
    apply fnlb_find hb_nl e hbe (by omega)
    intro j h1 h2
    rw [hfile]
    apply no_nl_in_line (hvr l2 (by simp))
    · rw [length_fileOf]
      omega
    · rw [length_fileOf]
      omega

theorem halt_base {cs : Int} (hcs : 1 ≤ cs) (done : List (List Char)) (t : List Char)
    (htb : (t.length : Int) + 1 ≤ cs) :
    ∃ (fuel : Nat) (rs : List (Int × Int)),
      chunkRanges cs (fileOf done ++ t) ((sizeT done : Int) + (t.length : Int)) fuel
        (startOf done) = some rs ∧
      List.Chain' (fun p q => p.1 < q.1) rs ∧ (∀ q ∈ rs, startOf done ≤ q.1) := by
  have hlen := length_fileOf_append done t
  by_cases hlt : startOf done < (sizeT done : Int) + (t.length : Int)
  · have hstart0 : 0 ≤ startOf done := by
      by_cases hd : done = []
      · rw [startOf, if_pos hd]
      · rw [startOf_cons hd]
        have := sizeT_pos hd
        omega
    have hboundA : (sizeT done : Int) + (t.length : Int) ≤ startOf done + cs := by
      by_cases hd : done = []
      · subst hd
        rw [startOf_nil, sizeT_nil]
        push_cast
        omega
      · rw [startOf_cons hd]
        have := sizeT_pos hd
        omega
    have hmin : min (startOf done + cs) ((sizeT done : Int) + (t.length : Int))
        = (sizeT done : Int) + (t.length : Int) := by omega
    have hfnl : findNextLineBoundary (fileOf done ++ t)
        (min (startOf done + cs) ((sizeT done : Int) + (t.length : Int)))
        = (sizeT done : Int) + (t.length : Int) := by
      rw [hmin]
      exact fnlb_eof (by omega)
    refine ⟨2, [(startOf done, (sizeT done : Int) + (t.length : Int))], ?_, ?_, ?_⟩
    · have hrec : chunkRanges cs (fileOf done ++ t) ((sizeT done : Int) + (t.length : Int)) 1
          (findNextLineBoundary (fileOf done ++ t)
            (min (startOf done + cs) ((sizeT done : Int) + (t.length : Int)))) = some [] := by
        rw [hfnl]
        exact chunkRanges_stop 0 le_rfl
      have hbuild := chunkRanges_build hlt hrec
      rw [hmin] at hbuild
      exact hbuild
    · simp
    · intro q hq
      simp only [List.mem_singleton] at hq
      subst hq
      exact le_rfl
  · exact ⟨1, [], chunkRanges_stop 0 (by omega), List.chain'_nil, by intro q hq; simp at hq⟩

theorem fitCount_two {cs : Int} (hcs : 1 ≤ cs) {r0 : List Char} {rest0 : List (List Char)}
    (hb2 : ∀ l ∈ (r0 :: rest0), (l.length : Int) + 1 ≤ cs)
    (hnontriv : r0 = [] → rest0 ≠ []) :
    2 ≤ sizeT ((r0 :: rest0).take (fitCount cs.toNat (r0 :: rest0))) := by
  have hr0b := hb2 r0 (by simp)
  have hr0n : r0.length ≤ cs.toNat := by omega
  have hk1 : 1 ≤ fitCount cs.toNat (r0 :: rest0) := fitCount_pos rest0 hr0n
  by_cases hr0e : r0 = []
  · subst hr0e
    rcases rest0 with _ | ⟨l2, rest1⟩
    · exact absurd rfl (hnontriv rfl)
    · have hl2b := hb2 l2 (by simp)
      have hf2 : 1 ≤ fitCount (cs.toNat - 1) (l2 :: rest1) := fitCount_pos rest1 (by omega)
      have hkeq : fitCount cs.toNat (([] : List Char) :: l2 :: rest1)
          = fitCount (cs.toNat - 1) (l2 :: rest1) + 1 := by
        rw [fitCount]
        rw [if_pos (by simp; omega)]
        norm_num
      rw [hkeq, List.take_succ_cons, sizeT_cons]
      have hm : (l2 :: rest1).take (fitCount (cs.toNat - 1) (l2 :: rest1)) ≠ [] := by
        intro hcon
        have := congrArg List.length hcon
        simp [List.length_take] at this
        omega
      have := sizeT_pos hm
      omega
  · have htake_eq : (r0 :: rest0).take (fitCount cs.toNat (r0 :: rest0))
        = r0 :: rest0.take (fitCount cs.toNat (r0 :: rest0) - 1) := by
      conv_lhs => rw [show fitCount cs.toNat (r0 :: rest0)
        = (fitCount cs.toNat (r0 :: rest0) - 1) + 1 by omega]
      rw [List.take_succ_cons]
    rw [htake_eq, sizeT_cons]
    have := List.length_pos.mpr hr0e
    omega

theorem halt_aux {cs : Int} (hcs : 1 ≤ cs) (lines : List (List Char)) (t : List Char)
    (hnl : ∀ l ∈ lines, ∀ c ∈ l, c ≠ '\n') (htnl : ∀ c ∈ t, c ≠ '\n')
    (hb : ∀ l ∈ lines, (l.length : Int) + 1 ≤ cs) (htb : (t.length : Int) + 1 ≤ cs) :
    ∀ (N : Nat) (rest done : List (List Char)), rest.length ≤ N → lines = done ++ rest →
      ∃ (fuel : Nat) (rs : List (Int × Int)),
        chunkRanges cs (fileOf lines ++ t) ((sizeT lines : Int) + (t.length : Int)) fuel
          (startOf done) = some rs ∧
        List.Chain' (fun p q => p.1 < q.1) rs ∧ (∀ q ∈ rs, startOf done ≤ q.1) := by
  intro N
  induction N with
  | zero =>
      intro rest done hlen0 hlines
      have hnil : rest = [] := List.length_eq_zero.mp (Nat.le_zero.mp hlen0)
      subst hnil
      rw [List.append_nil] at hlines
      subst hlines
      exact halt_base hcs _ t htb
  | succ N ih =>
      intro rest done hlenN hlines
      rcases rest with _ | ⟨r0, rest0⟩
      · rw [List.append_nil] at hlines
        subst hlines
        exact halt_base hcs _ t htb
      have hvr : ∀ l ∈ (r0 :: rest0), ∀ c ∈ l, c ≠ '\n' := by
        intro l hl
        exact hnl l (by rw [hlines]; exact List.mem_append_right _ hl)
      have hball : ∀ l ∈ (r0 :: rest0), (l.length : Int) + 1 ≤ cs := by
        intro l hl
        exact hb l (by rw [hlines]; exact List.mem_append_right _ hl)
      have hr0b : (r0.length : Int) + 1 ≤ cs := hball r0 (by simp)
      have hszl : sizeT lines = sizeT done + sizeT (r0 :: rest0) := by
        rw [hlines, sizeT_append]
      have hszlI : (sizeT lines : Int) = (sizeT done : Int) + (sizeT (r0 :: rest0) : Int) := by
        exact_mod_cast hszl
      have hrpos : 1 ≤ sizeT (r0 :: rest0) := sizeT_pos (by simp)
      have hstart_le : startOf done ≤ (sizeT done : Int) := by
        by_cases hd : done = []
        · rw [startOf, if_pos hd]
          positivity
        · rw [startOf_cons hd]
          omega
      have hstart0 : 0 ≤ startOf done := by
        by_cases hd : done = []
        · rw [startOf, if_pos hd]
        · rw [startOf_cons hd]
          have := sizeT_pos hd
          omega
      have hlen := length_fileOf_append lines t
      have hslt : startOf done < (sizeT lines : Int) + (t.length : Int) := by omega
      by_cases hA : (sizeT lines : Int) + (t.length : Int) ≤ startOf done + cs
      · -- the clamped final chunk covers everything that is left
        have hmin : min (startOf done + cs) ((sizeT lines : Int) + (t.length : Int))
            = (sizeT lines : Int) + (t.length : Int) := by omega
        have hfnl : findNextLineBoundary (fileOf lines ++ t)
            (min (startOf done + cs) ((sizeT lines : Int) + (t.length : Int)))
            = (sizeT lines : Int) + (t.length : Int) := by
          rw [hmin]
          exact fnlb_eof (by omega)
        refine ⟨2, [(startOf done, (sizeT lines : Int) + (t.length : Int))], ?_, ?_, ?_⟩
        · have hrec : chunkRanges cs (fileOf lines ++ t)
              ((sizeT lines : Int) + (t.length : Int)) 1
              (findNextLineBoundary (fileOf lines ++ t)
                (min (startOf done + cs) ((sizeT lines : Int) + (t.length : Int))))
              = some [] := by
            rw [hfnl]
            exact chunkRanges_stop 0 le_rfl
          have hbuild := chunkRanges_build hslt hrec
          rw [hmin] at hbuild
          exact hbuild
        · simp
        · intro q hq
          simp only [List.mem_singleton] at hq
          subst hq
          exact le_rfl
      · -- the chunk ends strictly inside the file
        have hBlt : startOf done + cs < (sizeT lines : Int) + (t.length : Int) := by omega
        have hmin : min (startOf done + cs) ((sizeT lines : Int) + (t.length : Int))
            = startOf done + cs := by omega
        by_cases hd : done = []
        · -- first chunk, no leading newline
          have hd0 : startOf done = 0 := by rw [startOf, if_pos hd]
          have hleq : lines = r0 :: rest0 := by rw [hlines, hd]; rfl
          have hr0n : r0.length ≤ cs.toNat := by omega
          have hk1 : 1 ≤ fitCount cs.toNat (r0 :: rest0) :=
            fitCount_pos rest0 hr0n
          have hkle : fitCount cs.toNat (r0 :: rest0) ≤ (r0 :: rest0).length :=
            fitCount_le _ _
          have hfit1 : sizeT ((r0 :: rest0).take (fitCount cs.toNat (r0 :: rest0)))
              ≤ cs.toNat + 1 := fitCount_size_le _ _
          have htne : (r0 :: rest0).take (fitCount cs.toNat (r0 :: rest0)) ≠ [] := by
            intro hcon
            have := congrArg List.length hcon
            simp [List.length_take] at this
            omega
          have hsz2 : 2 ≤ sizeT ((r0 :: rest0).take (fitCount cs.toNat (r0 :: rest0))) := by
            refine fitCount_two hcs hball ?_
            intro hr0e hre
            have hs1 : sizeT lines = 1 := by
              rw [hleq, hr0e, hre]
              simp [sizeT]
            rw [hd0, hs1] at hBlt
            omega
          have hlines2 : lines = (r0 :: rest0).take (fitCount cs.toNat (r0 :: rest0))
              ++ (r0 :: rest0).drop (fitCount cs.toNat (r0 :: rest0)) := by
            rw [hleq, List.take_append_drop]
          have hfnl : findNextLineBoundary (fileOf lines ++ t) (startOf done + cs)
              = (sizeT ((r0 :: rest0).take (fitCount cs.toNat (r0 :: rest0))) : Int) - 1 := by
            apply boundary_found_t hlines2 htne
              (fun l hl => hvr l (List.drop_subset _ _ hl)) htnl
            · omega
            · omega
            · intro l2 rest3 hdropeq
              have hklt : fitCount cs.toNat (r0 :: rest0) < (r0 :: rest0).length := by
                by_contra hge
                rw [List.drop_eq_nil_of_le (by omega)] at hdropeq
                cases hdropeq
              have hfit2 := fitCount_next hklt
              have htake1 : (r0 :: rest0).take (fitCount cs.toNat (r0 :: rest0) + 1)
                  = (r0 :: rest0).take (fitCount cs.toNat (r0 :: rest0)) ++ [l2] := by
                rw [List.take_succ]
                have hh := List.head?_drop (r0 :: rest0) (fitCount cs.toNat (r0 :: rest0))
                rw [hdropeq] at hh
                simp only [List.head?_cons] at hh
                rw [← hh]
                rfl
              rw [htake1, sizeT_append] at hfit2
              have hl2 : sizeT [l2] = l2.length + 1 := by simp [sizeT]
              rw [hl2] at hfit2
              push_cast
              omega
          have hbstart : startOf ((r0 :: rest0).take (fitCount cs.toNat (r0 :: rest0)))
              = (sizeT ((r0 :: rest0).take (fitCount cs.toNat (r0 :: rest0))) : Int) - 1 :=
            startOf_cons htne
          obtain ⟨fuel', rs', hcr', hch', hge'⟩ :=
            ih ((r0 :: rest0).drop (fitCount cs.toNat (r0 :: rest0)))
              ((r0 :: rest0).take (fitCount cs.toNat (r0 :: rest0)))
              (by simp only [List.length_drop, List.length_cons] at hlenN ⊢; omega) hlines2
          refine ⟨fuel' + 1, (startOf done, startOf done + cs) :: rs', ?_, ?_, ?_⟩
          · have hrec : chunkRanges cs (fileOf lines ++ t)
                ((sizeT lines : Int) + (t.length : Int)) fuel'
                (findNextLineBoundary (fileOf lines ++ t)
                  (min (startOf done + cs) ((sizeT lines : Int) + (t.length : Int))))
                = some rs' := by
              rw [hmin, hfnl, ← hbstart]
              exact hcr'
            have hbuild := chunkRanges_build hslt hrec
            rw [hmin] at hbuild
            exact hbuild
          · rw [List.chain'_cons']
            refine ⟨?_, hch'⟩
            intro q hq
            have hqm := hge' q (List.mem_of_mem_head? hq)
            rw [hbstart] at hqm
            simp only
            omega
          · intro q hq
            rcases List.mem_cons.mp hq with hq | hq
            · subst hq
              exact le_rfl
            · have hqm := hge' q hq
              rw [hbstart] at hqm
              omega
        · -- a later chunk, led by the boundary newline
          have hsc : startOf done = (sizeT done : Int) - 1 := startOf_cons hd
          have hdpos := sizeT_pos hd
          have hr0n : r0.length ≤ cs.toNat - 1 := by omega
          have hk1 : 1 ≤ fitCount (cs.toNat - 1) (r0 :: rest0) :=
            fitCount_pos rest0 hr0n
          have hkle : fitCount (cs.toNat - 1) (r0 :: rest0) ≤ (r0 :: rest0).length :=
            fitCount_le _ _
          have hfit1 : sizeT ((r0 :: rest0).take (fitCount (cs.toNat - 1) (r0 :: rest0)))
              ≤ (cs.toNat - 1) + 1 := fitCount_size_le _ _
          have htne : (r0 :: rest0).take (fitCount (cs.toNat - 1) (r0 :: rest0)) ≠ [] := by
            intro hcon
            have := congrArg List.length hcon
            simp [List.length_take] at this
            omega
          have hlines2 : lines
              = (done ++ (r0 :: rest0).take (fitCount (cs.toNat - 1) (r0 :: rest0)))
                ++ (r0 :: rest0).drop (fitCount (cs.toNat - 1) (r0 :: rest0)) := by
            rw [hlines, List.append_assoc, List.take_append_drop]
          have hne2 : done ++ (r0 :: rest0).take (fitCount (cs.toNat - 1) (r0 :: rest0))
              ≠ [] := by
            simp [List.append_eq_nil, hd]
          have hszd2 : sizeT (done ++ (r0 :: rest0).take (fitCount (cs.toNat - 1) (r0 :: rest0)))
              = sizeT done + sizeT ((r0 :: rest0).take (fitCount (cs.toNat - 1) (r0 :: rest0))) := by
            rw [sizeT_append]
          have hstpos : 1 ≤ sizeT ((r0 :: rest0).take (fitCount (cs.toNat - 1) (r0 :: rest0))) :=
            sizeT_pos htne
          have hfnl : findNextLineBoundary (fileOf lines ++ t) (startOf done + cs)
              = (sizeT (done ++ (r0 :: rest0).take (fitCount (cs.toNat - 1) (r0 :: rest0))) : Int)
                - 1 := by
            apply boundary_found_t hlines2 hne2
              (fun l hl => hvr l (List.drop_subset _ _ hl)) htnl
            · rw [hszd2]
              push_cast
              omega
            · omega
            · intro l2 rest3 hdropeq
              have hklt : fitCount (cs.toNat - 1) (r0 :: rest0) < (r0 :: rest0).length := by
                by_contra hge
                rw [List.drop_eq_nil_of_le (by omega)] at hdropeq
                cases hdropeq
              have hfit2 := fitCount_next hklt
              have htake1 : (r0 :: rest0).take (fitCount (cs.toNat - 1) (r0 :: rest0) + 1)
                  = (r0 :: rest0).take (fitCount (cs.toNat - 1) (r0 :: rest0)) ++ [l2] := by
                rw [List.take_succ]
                have hh := List.head?_drop (r0 :: rest0) (fitCount (cs.toNat - 1) (r0 :: rest0))
                rw [hdropeq] at hh
                simp only [List.head?_cons] at hh
                rw [← hh]
                rfl
              rw [htake1, sizeT_append] at hfit2
              have hl2 : sizeT [l2] = l2.length + 1 := by simp [sizeT]
              rw [hl2] at hfit2
              rw [hszd2]
              push_cast
              omega
          have hbstart : startOf (done ++ (r0 :: rest0).take (fitCount (cs.toNat - 1) (r0 :: rest0)))
              = (sizeT (done ++ (r0 :: rest0).take (fitCount (cs.toNat - 1) (r0 :: rest0))) : Int)
                - 1 := startOf_cons hne2
          obtain ⟨fuel', rs', hcr', hch', hge'⟩ :=
            ih ((r0 :: rest0).drop (fitCount (cs.toNat - 1) (r0 :: rest0)))
              (done ++ (r0 :: rest0).take (fitCount (cs.toNat - 1) (r0 :: rest0)))
              (by simp only [List.length_drop, List.length_cons] at hlenN ⊢; omega) hlines2
          refine ⟨fuel' + 1, (startOf done, startOf done + cs) :: rs', ?_, ?_, ?_⟩
          · have hrec : chunkRanges cs (fileOf lines ++ t)
                ((sizeT lines : Int) + (t.length : Int)) fuel'
                (findNextLineBoundary (fileOf lines ++ t)
                  (min (startOf done + cs) ((sizeT lines : Int) + (t.length : Int))))
                = some rs' := by
              rw [hmin, hfnl, ← hbstart]
              exact hcr'
            have hbuild := chunkRanges_build hslt hrec
            rw [hmin] at hbuild
            exact hbuild
          · rw [List.chain'_cons']
            refine ⟨?_, hch'⟩
            intro q hq
            have hqm := hge' q (List.mem_of_mem_head? hq)
            rw [hbstart, hszd2] at hqm
            simp only
            push_cast at hqm
            omega
          · intro q hq
            rcases List.mem_cons.mp hq with hq | hq
            · subst hq
              exact le_rfl
            · have hqm := hge' q hq
              rw [hbstart, hszd2] at hqm
              push_cast at hqm
              omega

theorem chunkRanges_halts {cs : Int} (hcs : 1 ≤ cs) (file : List Char)
    (hb : ∀ p ∈ splitOnNl file, (p.length : Int) + 1 ≤ cs) :
    ∃ (fuel : Nat) (rs : List (Int × Int)),
      chunkRanges cs file (file.length : Int) fuel 0 = some rs ∧
      List.Chain' (fun p q => p.1 < q.1) rs := by
  rcases List.eq_nil_or_concat (splitOnNl file) with hnil | ⟨qs, t, hsplit⟩
  · exact absurd hnil (splitOnNl_ne_nil file)
  · rw [List.concat_eq_append] at hsplit
    have hfile : file = fileOf qs ++ t := splitOnNl_concat file hsplit
    have hqs_nl : ∀ l ∈ qs, ∀ c ∈ l, c ≠ '\n' := fun l hl =>
      splitOnNl_no_newline file l (by rw [hsplit]; exact List.mem_append_left _ hl)
    have ht_nl : ∀ c ∈ t, c ≠ '\n' :=
      splitOnNl_no_newline file t (by rw [hsplit]; simp)
    have hqs_b : ∀ l ∈ qs, (l.length : Int) + 1 ≤ cs := fun l hl =>
      hb l (by rw [hsplit]; exact List.mem_append_left _ hl)
    have ht_b : (t.length : Int) + 1 ≤ cs := hb t (by rw [hsplit]; simp)
    obtain ⟨fuel, rs, hcr, hch, _⟩ :=
      halt_aux hcs qs t hqs_nl ht_nl hqs_b ht_b qs.length qs [] le_rfl (by simp)
    rw [startOf_nil] at hcr
    have hlen : (file.length : Int) = (sizeT qs : Int) + (t.length : Int) := by
      rw [hfile]
      exact length_fileOf_append qs t
    rw [← hfile, ← hlen] at hcr
    exact ⟨fuel, rs, hcr, hch⟩

/-! ### The claims -/

/-- Claim C1 (corrected): for every valid input file in which every line
is shorter than the 64 KiB scanner token cap and every line together
with its terminating newline fits within the chunk size, the concurrent
and the sequential paths of `run` return the same formatted string, for
every chunk size at least 1 and every channel arrival order; hence on
that domain the output does not depend on the concurrency setting or on
the chunk size constant. As stated the claim is false twice over: a
valid file with a line of `maxScanTokenSize` bytes or more (but below
the chunk size) makes the sequential path fail with `bufio.ErrTooLong`
while the concurrent path returns the aggregate (see the
counterexample), and a valid file with a line longer than the chunk
size makes the concurrent path loop forever (`longFile_no_term`). -/
theorem c1_modes_agree {cs : Int} (hcs : 1 ≤ cs) {lines : List (List Char)}
    (hv : ∀ l ∈ lines, validLine l = true)
    (hcap : ∀ l ∈ lines, l.length < maxScanTokenSize)
    (hb : ∀ l ∈ lines, (l.length : Int) + 1 ≤ cs) {fuel : Nat}
    {maps arrived : List LocationMap}
    (hm : sentMaps (fileOf lines) (some (sizeT lines)) cs fuel = some maps)
    (ha : arrived.Perm maps) :
    ∃ s : String, concResult arrived = some s ∧ runSeq (fileOf lines) = some s := by
  have heq := run_equiv_core hcs hv hcap hb hm ha
  have hsome := runSeq_isSome hv hcap
  rcases hr : runSeq (fileOf lines) with _ | s
  · rw [hr] at hsome
    simp at hsome
  · exact ⟨s, by rw [heq, hr], rfl⟩

/-- Witness for C1: on the one-line file `a;1.2` with chunk size 6, both
paths return the same string. -/
theorem c1_modes_agree_witness :
    ∃ s : String,
      concResult [chunkMapOf [['a', ';', '1', '.', '2']]] = some s ∧
      runSeq (fileOf [['a', ';', '1', '.', '2']]) = some s := by
  refine c1_modes_agree ?_ ?_ ?_ ?_ sent_tiny (List.Perm.refl _) <;> decide

/-- Counterexample for C1 as stated: on the valid one-line file
`midFile` — a 70000-byte line, which exceeds `bufio.Scanner`'s 64 KiB
`MaxScanTokenSize` but fits with its newline inside one 81920-byte
chunk — the sequential path fails with `ErrTooLong` and returns no
formatted string, while the concurrent path dispatches the single chunk
and renders the aggregate, so the two modes do not return byte-identical
output. -/
theorem c1_counterexample_modes_differ :
    validLine midLine = true ∧ midLine.length = 70000 ∧ midFile.length = 70001 ∧
      (midLine.length : Int) + 1 ≤ chunkSizeGo ∧
      runSeq midFile = none ∧
      sentMaps midFile (some 70001) chunkSizeGo 2 = some [chunkMapOf [midLine]] ∧
      (concResult [chunkMapOf [midLine]]).isSome = true := by
  refine ⟨midLine_valid, midLine_length, midFile_length, ?_, runSeq_midFile,
    sent_midFile, concResult_isSome _⟩
  rw [midLine_length]
  decide

/-- Claim C2 (corrected): the ranges handed to chunk workers need not
partition the file exactly. What holds of every dispatched range list:
each chunk ends at `min(start + chunkSize, fileSize)`, the start of the
next chunk is the backward-corrected newline boundary of the previous
chunk's end — which is at most that end, so consecutive chunks can
overlap and a boundary line can lie in two chunks — the last chunk ends
at the file size, and every byte of the file is covered by at least one
chunk. -/
theorem c2_chunk_layout {cs : Int} {file : List Char} {size : Int} {fuel : Nat}
    {rs : List (Int × Int)} (h : chunkRanges cs file size fuel 0 = some rs) :
    (∀ p ∈ rs, p.2 = min (p.1 + cs) size) ∧
    List.Chain' (fun p q => q.1 = findNextLineBoundary file p.2) rs ∧
    (∀ p ∈ rs, findNextLineBoundary file p.2 ≤ p.2) ∧
    (∀ hne : rs ≠ [], (rs.getLast hne).2 = size) ∧
    (∀ p : Int, 0 ≤ p → p < size → ∃ q ∈ rs, q.1 ≤ p ∧ p < q.2) :=
  ⟨chunkRanges_ends h, chunkRanges_chain h, fun p _ => fnlb_le file p.2,
    chunkRanges_last h, fun p h0 hp => chunkRanges_cover h p h0 hp⟩

/-- Witness for C2: the layout facts evaluated on the one-line file
`a;1.2` with chunk size 6, whose dispatch produces the single range
`(0, 6)`. -/
theorem c2_chunk_layout_witness :
    (∀ p ∈ [((0 : Int), (6 : Int))],
      p.2 = min (p.1 + 6) (sizeT [['a', ';', '1', '.', '2']] : Int)) ∧
    List.Chain' (fun p q =>
      q.1 = findNextLineBoundary (fileOf [['a', ';', '1', '.', '2']]) p.2)
      [((0 : Int), (6 : Int))] ∧
    (∀ p ∈ [((0 : Int), (6 : Int))],
      findNextLineBoundary (fileOf [['a', ';', '1', '.', '2']]) p.2 ≤ p.2) ∧
    (∀ hne : [((0 : Int), (6 : Int))] ≠ [],
      ([((0 : Int), (6 : Int))].getLast hne).2 = (sizeT [['a', ';', '1', '.', '2']] : Int)) ∧
    (∀ p : Int, 0 ≤ p → p < (sizeT [['a', ';', '1', '.', '2']] : Int) →
      ∃ q ∈ [((0 : Int), (6 : Int))], q.1 ≤ p ∧ p < q.2) :=
  c2_chunk_layout chunkRanges_tiny

/-- Counterexample for C2 as stated: on the two-line file `wideFile`
(size 81925, first newline at offset 81918) the dispatched ranges are
`(0, 81920)` and `(81918, 81925)`: the end of the first chunk is not the
start of the second, bytes 81918 and 81919 lie in both chunks, and the
second line is split across the two chunks. -/
theorem c2_counterexample_overlap :
    chunkRanges chunkSizeGo wideFile 81925 3 0 = some [(0, 81920), (81918, 81925)] ∧
    validLine wideLine = true ∧ wideFile.length = 81925 ∧
    ¬ List.Chain' (fun p q : Int × Int => p.2 = q.1)
      [((0 : Int), (81920 : Int)), ((81918 : Int), (81925 : Int))] := by
  refine ⟨chunkRanges_wideFile, wideLine_valid, wideFile_length, ?_⟩
  intro hch
  rw [List.chain'_cons] at hch
  exact absurd hch.1 (by decide)

/-- Claim C3 (corrected): the chunk worker recovers locally exactly from
the malformed lines that fail its completeness check — an empty line, a
line with no `;`, or a value substring that is shorter than 3 bytes or
lacks `.` in the second-to-last position: `processLine` returns the skip
value, the per-line fold leaves the chunk map untouched, and no error is
surfaced; and in the sequential aggregator a line with no `;` is
likewise skipped without effect. Beyond that the original claim fails:
a check-passing malformed value panics the worker, and the sequential
path never checks value shapes at all, so a delimiter-bearing malformed
line panics it or corrupts its output (see the counterexample). -/
theorem c3_worker_skips {l : List Char} (i : Nat) (m : LocationMap)
    (h : l = [] ∨ l.findIdx? (· = ';') = none ∨
      (l.findIdx? (· = ';') = some i ∧
        ((l.drop (i + 1)).length < 3 ∨
          ¬ (l.drop (i + 1)).get? ((l.drop (i + 1)).length - 2) = some '.'))) :
    processLine l = some none ∧ pcStep m l = some m ∧
    (∀ acc, l.findIdx? (· = ';') = none → sfStep acc l = some acc) := by
  have hs := processLine_skips i h
  refine ⟨hs, ?_, ?_⟩
  · unfold pcStep
    rw [hs]
  · intro acc hnone
    unfold sfStep
    rw [hnone]

/-- Witness for C3: the malformed line `a;1` (value too short) is
skipped by the worker and leaves a nonempty chunk map unchanged. -/
theorem c3_worker_skips_witness :
    processLine ['a', ';', '1'] = some none ∧
    pcStep [(['z'], ⟨1, 1, 1, 1⟩)] ['a', ';', '1'] = some [(['z'], ⟨1, 1, 1, 1⟩)] ∧
    (∀ acc, ['a', ';', '1'].findIdx? (· = ';') = none → sfStep acc ['a', ';', '1'] = some acc) :=
  c3_worker_skips 1 [(['z'], ⟨1, 1, 1, 1⟩)] (Or.inr (Or.inr (by decide)))

/-- Counterexample for C3 as stated: neither path recovers from every
malformed line. The sequential path panics on `a;1` (`parseNumber` reads
past the end of the 1-byte value), silently aggregates the garbage
reading 545.2 for the malformed line `x;abcd` (all four indexed bytes
are in bounds but are not digits), and so returns either nothing or a
corrupted entry; and the worker itself panics on the check-passing
malformed line `a;-.5`. -/
theorem c3_counterexample_not_skipped :
    parseFile (fileOf [['a', ';', '1']]) = none ∧
    runSeq (fileOf [['a', ';', '1']]) = none ∧
    parseFile (fileOf [['x', ';', 'a', 'b', 'c', 'd']])
      = some ([['x']], [(['x'], ⟨5452, 5452, 5452, 1⟩)]) ∧
    pcStep [] ['a', ';', '-', '.', '5'] = none := by decide

/-- Claim C4 (confirmed): on every value string of the valid shapes
`D.D`, `DD.D`, `-D.D`, `-DD.D`, `parseNumber` returns exactly the signed
number of tenths the decimal string denotes. -/
theorem c4_parse_number {v : List Char} (h : validVal v = true) :
    parseNumber v = some (valDenote v) := by
  rcases validVal_elim h with ⟨d1, d2, hv, h1, h2⟩ | ⟨d1, d2, d3, hv, h1, h2, h3⟩ |
    ⟨d1, d2, hv, h1, h2⟩ | ⟨d1, d2, d3, hv, h1, h2, h3⟩ <;> subst hv
  · rw [parseNumber_shape1 h1 h2]
    simp only [valDenote, digitVal]
    congr 1
    ring
  · rw [parseNumber_shape2 h1 h2 h3]
    simp only [valDenote, digitVal, if_neg (char_ne_of_digit_minus h1)]
    congr 1
    ring
  · rw [parseNumber_shape3 h1 h2]
    simp only [valDenote, digitVal, eq_self_iff_true, if_true]
    congr 1
    ring
  · rw [parseNumber_shape4 h1 h2 h3]
    simp only [valDenote, digitVal]
    congr 1
    ring

/-- Witness for C4: parsing `12.3` yields 123 tenths and parsing `-3.4`
yields -34 tenths. -/
theorem c4_parse_number_witness :
    (validVal ['1', '2', '.', '3'] = true ∧ parseNumber ['1', '2', '.', '3'] = some 123) ∧
    (validVal ['-', '3', '.', '4'] = true ∧ parseNumber ['-', '3', '.', '4'] = some (-34)) := by
  refine ⟨⟨by decide, ?_⟩, by decide, ?_⟩
  · rw [c4_parse_number (by decide)]
    decide
  · rw [c4_parse_number (by decide)]
    decide

/-- Claim C5 (corrected): for every finite byte file — well-formed or
not — in which every maximal newline-free run together with its newline
fits within the chunk size, the dispatch loop terminates, with strictly
increasing chunk start offsets and the last chunk ending at the file
size; no validity of line contents is assumed, only the newline
spacing. As stated — for every finite file — the claim is false: a line
longer than the chunk size makes the backward boundary scan return the
same offset forever (see the counterexample). -/
theorem c5_loop_terminates {cs : Int} (hcs : 1 ≤ cs) (file : List Char)
    (hb : ∀ p ∈ splitOnNl file, (p.length : Int) + 1 ≤ cs) :
    ∃ (fuel : Nat) (rs : List (Int × Int)),
      chunkRanges cs file (file.length : Int) fuel 0 = some rs ∧
      List.Chain' (fun p q => p.1 < q.1) rs ∧
      (∀ hne : rs ≠ [], (rs.getLast hne).2 = (file.length : Int)) := by
  obtain ⟨fuel, rs, hcr, hch⟩ := chunkRanges_halts hcs file hb
  exact ⟨fuel, rs, hcr, hch, chunkRanges_last hcr⟩

/-- Witness for C5: the dispatch loop finishes on the malformed two-line
file `hello`, `world` (no delimiter, no parsable value on any line) with
chunk size 7. -/
theorem c5_loop_terminates_witness :
    orchestratorHalts 7 ['h', 'e', 'l', 'l', 'o', '\n', 'w', 'o', 'r', 'l', 'd', '\n']
      (['h', 'e', 'l', 'l', 'o', '\n', 'w', 'o', 'r', 'l', 'd', '\n'].length : Int) := by
  obtain ⟨fuel, rs, h1, _, _⟩ := c5_loop_terminates (show (1 : Int) ≤ 7 by decide)
    ['h', 'e', 'l', 'l', 'o', '\n', 'w', 'o', 'r', 'l', 'd', '\n'] (by decide)
  exact ⟨fuel, rs, h1⟩

/-- Counterexample for C5 as stated: on the valid one-line file
`longFile`, whose line is longer than the chunk size, the dispatch loop
never finishes — no amount of fuel makes `chunkRanges` return. -/
theorem c5_counterexample_nontermination :
    validLine longLine = true ∧ longFile.length = 90005 ∧
      ¬ orchestratorHalts chunkSizeGo longFile 90005 :=
  ⟨longLine_valid, longFile_length, longFile_no_halt⟩

/-- Claim C6 (corrected): the worker's completeness check (length at
least 3 and a dot in the second-to-last position) guarantees in-bounds
indexing in `parseNumber` only for values that do not consist of a
leading minus sign with exactly two more characters: under the check
plus that proviso, every index access of `parseNumber` is in bounds. As
stated the claim is false: the value `-.5` passes the check and
`parseNumber` indexes out of bounds on it (see the counterexample). -/
theorem c6_check_inbounds {val : List Char} (hlen : 3 ≤ val.length)
    (hdot : val.get? (val.length - 2) = some '.')
    (hok : ¬ val.get? 0 = some '-' ∨ 4 ≤ val.length) :
    (parseNumber val).isSome = true := by
  match val with
  | [] => simp at hlen
  | [a] => simp at hlen
  | [a, b] => simp at hlen
  | [a, b, c] =>
      have hb : b = '.' := by simpa using hdot
      subst hb
      have ha : ¬ a = '-' := by
        rcases hok with h | h
        · simpa using h
        · simp at h
      simp [parseNumber, ha]
  | [a, b, c, d] =>
      have hc : c = '.' := by simpa using hdot
      subst hc
      by_cases ha : a = '-'
      · subst ha
        simp [parseNumber]
      · by_cases hb : b = '.' <;> simp [parseNumber, ha, hb]
  | a :: b :: c :: d :: e :: rest =>
      by_cases ha : a = '-'
      · subst ha
        by_cases hc : c = '.' <;> simp [parseNumber, hc]
      · by_cases hb : b = '.' <;> simp [parseNumber, ha, hb]

/-- Witness for C6: the checked value `12.3` is parsed with only
in-bounds accesses. -/
theorem c6_check_inbounds_witness :
    (3 ≤ ['1', '2', '.', '3'].length ∧
      ['1', '2', '.', '3'].get? (['1', '2', '.', '3'].length - 2) = some '.' ∧
      (¬ ['1', '2', '.', '3'].get? 0 = some '-' ∨ 4 ≤ ['1', '2', '.', '3'].length)) ∧
    (parseNumber ['1', '2', '.', '3']).isSome = true :=
  ⟨⟨by decide, by decide, by decide⟩,
    c6_check_inbounds (by decide) (by decide) (by decide)⟩

/-- Counterexample for C6 as stated: `-.5` has length 3 and a dot in the
second-to-last position, so it passes the worker's completeness check,
yet `parseNumber` reads index 3 of the 2-character remainder after sign
stripping — out of bounds, a panic — and the whole line `a;-.5` crashes
`processLine`. -/
theorem c6_counterexample_oob :
    3 ≤ ['-', '.', '5'].length ∧
    ['-', '.', '5'].get? (['-', '.', '5'].length - 2) = some '.' ∧
    parseNumber ['-', '.', '5'] = none ∧
    processLine ['a', ';', '-', '.', '5'] = none := by decide

/-- Claim C8 (confirmed): the per-key merge is commutative and
associative, and merging any permutation of the chunk-local maps gives
every key the same aggregate in the global map. -/
theorem c8_merge_order_free {l1 l2 : List LocationMap}
    (hnd : ∀ m ∈ l1, (m.map Prod.fst).Nodup) (hp : l1.Perm l2) :
    (∀ a b : Location, mergeLoc a b = mergeLoc b a) ∧
    (∀ a b c : Location, mergeLoc (mergeLoc a b) c = mergeLoc a (mergeLoc b c)) ∧
    (∀ k : List Char, (mergeAll l1).2.lookup k = (mergeAll l2).2.lookup k) := by
  refine ⟨mergeLoc_comm, mergeLoc_assoc, ?_⟩
  intro k
  have hnd2 : ∀ m ∈ l2, (m.map Prod.fst).Nodup := fun m hm => hnd m (hp.mem_iff.mpr hm)
  rw [lookup_mergeAll l1 hnd k, lookup_mergeAll l2 hnd2 k]
  exact foldl_optMerge_perm (hp.map _) none

/-- Witness for C8: two concrete chunk-local maps merged in either
arrival order give the same per-key aggregates. -/
theorem c8_merge_order_free_witness :
    (∀ a b : Location, mergeLoc a b = mergeLoc b a) ∧
    (∀ a b c : Location, mergeLoc (mergeLoc a b) c = mergeLoc a (mergeLoc b c)) ∧
    (∀ k : List Char,
      (mergeAll [[(['a'], ⟨10, 10, 10, 1⟩)],
        [(['a'], ⟨20, 20, 20, 1⟩), (['b'], ⟨5, 5, 5, 1⟩)]]).2.lookup k =
      (mergeAll [[(['a'], ⟨20, 20, 20, 1⟩), (['b'], ⟨5, 5, 5, 1⟩)],
        [(['a'], ⟨10, 10, 10, 1⟩)]]).2.lookup k) :=
  c8_merge_order_free (by decide) (List.Perm.swap _ _ _)

/-- Claim C9 (confirmed): for every duplicate-free key list — both
aggregation paths produce one — the keys rendered into the output appear
in strictly ascending byte-wise lexicographic order, whatever the order
the keys were discovered in. -/
theorem c9_output_sorted {locations : List (List Char)} (hnd : locations.Nodup)
    (m : LocationMap) :
    List.Pairwise keyLt (sortKeys locations) ∧
    createResult locations m = buildResult (sortKeys locations) m := by
  constructor
  · have hs := sortKeys_sorted locations
    have hn : (sortKeys locations).Nodup := (sortKeys_perm locations).nodup_iff.mpr hnd
    exact hs.and hn
  · rfl

/-- Witness for C9: the keys `b`, `a` are rendered in the order `a`,
`b`. -/
theorem c9_output_sorted_witness :
    List.Pairwise keyLt (sortKeys [['b'], ['a']]) ∧
    createResult [['b'], ['a']] [] = buildResult (sortKeys [['b'], ['a']]) [] :=
  c9_output_sorted (by decide) []

/-- Claim C10 (confirmed): when `file.Stat()` fails in the concurrent
path, the orchestrator sends no map and still signals completion, so
`run` returns the formatted empty mapping with a nil error — exactly
what a genuinely empty input file produces, so the caller cannot tell
the two apart. -/
theorem c10_stat_error_empty (file : List Char) (cs : Int) (fuel : Nat) :
    sentMaps file none cs fuel = some [] ∧
    concResult [] = some "\x7b\x7d" ∧
    sentMaps (fileOf []) (some (sizeT [])) cs (fuel + 1) = some [] := by
  refine ⟨rfl, ?_, ?_⟩
  · decide
  · rfl
